import Mathlib

/-!
# WSR image extractor: the line splitter and the base64-JPEG counter

A shallow embedding of `c_experiment/src/util.h` and `c_experiment/src/wsr.c`.

Conventions of the embedding.

* A byte is a natural number; the underlying storage a span points into is a
  `List Nat` called `mem`.
* A `uint8_t*` of a `byte_span_t` is an `Option Nat`: `none` is `NULL`, and
  `some o` is the address `o` bytes past the start of `mem`.
* A `char*` of a `str_t` is the list of bytes stored from that address on.
* `size_t` arithmetic is taken modulo `2 ^ 64`.
* A function returns `none` when the C program leaves defined behaviour
  (a read outside the storage, a null dereference) or fails an `assert`;
  loops carry a fuel argument and return `none` when it runs out.
* A C string of `argv` is the list of its bytes before the terminating zero; whether a call
  of `malloc` returns a buffer is a parameter of the function that makes the call, and
  reading the file is a parameter of `main`.
-/

namespace WSR

/-! ## Machine arithmetic -/

/-- The number of values of a `size_t`. -/
def SIZE_T_MOD : Nat := 2 ^ 64

/-- Subtraction of two `size_t` values. -/
def size_sub (a b : Nat) : Nat := (a + (SIZE_T_MOD - b % SIZE_T_MOD)) % SIZE_T_MOD

/-- Addition of two `size_t` values. -/
def size_add (a b : Nat) : Nat := (a + b) % SIZE_T_MOD

/-! ## util.h: strings -/

/-- The struct `str_t`: `bytes` is the storage from the pointer on, `len` the length. -/
structure str_t where
  bytes : List Nat
  len : Nat
  deriving DecidableEq, Repr

/-- The characters of a string literal as bytes (the literals of the program are ASCII). -/
def literal_bytes (s : String) : List Nat := s.toList.map Char.toNat

/-- The macro `cstr(s)`: the array of a literal holds its characters and a
terminating zero, and `len` is `ARRAYSIZE(s) - 1`. -/
def cstr (s : String) : str_t :=
  { bytes := literal_bytes s ++ [0], len := (literal_bytes s ++ [0]).length - 1 }

/-- The function `mem_eq`: `memcmp(a, b, len) == 0`. -/
def mem_eq (a b : List Nat) (len : Nat) : Bool := a.take len == b.take len

/-- The function `str_eq`. -/
def str_eq (a b : str_t) : Bool := a.len == b.len && mem_eq a.bytes b.bytes a.len

/-- The function `str_starts_with`. -/
def str_starts_with (s pfx : str_t) : Bool :=
  if s.len < pfx.len then false
  else
    let truncated_s : str_t := { bytes := s.bytes, len := pfx.len }
    str_eq truncated_s pfx

/-! ## util.h: spans and the splitter -/

/-- The struct `byte_span_t`. -/
structure byte_span_t where
  data : Option Nat
  count : Nat
  deriving DecidableEq, Repr

/-- The loop `while (buffer.count > 0 && buffer.data[0] == split_char) SPAN_ADV(buffer);`
of `get_first_split`, for a span whose data pointer is `off`, by recursion on its count. -/
def skip_leading (mem : List Nat) (split_char : Nat) : Nat → Nat → Option byte_span_t
  | off, 0 => some { data := some off, count := 0 }
  | off, n + 1 =>
    match mem[off]? with
    | none => none
    | some b =>
      if b = split_char then skip_leading mem split_char (off + 1) n
      else some { data := some off, count := n + 1 }

/-- The library function `memchr(p, c, n)` for `p` at offset `off`: the bytes are read in
order up to the first match; the inner `none` is the `NULL` result. -/
def memchr (mem : List Nat) (c : Nat) : Nat → Nat → Option (Option Nat)
  | _, 0 => some none
  | off, n + 1 =>
    match mem[off]? with
    | none => none
    | some b => if b = c then some (some off) else memchr mem c (off + 1) n

/-- The function `get_first_split`. -/
def get_first_split (mem : List Nat) (buffer : byte_span_t) (split_char : Nat) :
    Option byte_span_t :=
  match buffer.data with
  | none =>
    -- `buffer.count > 0 && buffer.data[0] == ...` reads through `NULL` unless the count is 0
    if buffer.count = 0 then some { data := none, count := 0 } else none
  | some off =>
    match skip_leading mem split_char off buffer.count with
    | none => none
    | some buffer =>
      if buffer.count = 0 then some { data := none, count := 0 }
      else
        match buffer.data with
        | none => none
        | some d =>
          match memchr mem split_char d buffer.count with
          | none => none
          | some none => some buffer
          | some (some split_char_ptr) => some { data := some d, count := split_char_ptr - d }

/-- The function `get_next_split`, with its three assertions. -/
def get_next_split (mem : List Nat) (current_split full_span : byte_span_t) (split_char : Nat) :
    Option byte_span_t :=
  match current_split.data, full_span.data with
  | some c, some f =>
    if ¬ current_split.count ≤ full_span.count then none
    else if ¬ f ≤ c then none
    else if ¬ c ≤ f + full_span.count then none
    else
      let current_split_offset := c - f
      let remaining_span : byte_span_t :=
        { data := some (c + current_split.count),
          count := size_sub (size_sub full_span.count current_split.count) current_split_offset }
      get_first_split mem remaining_span split_char
  | _, _ => none

/-- The loop of the macro `split_by` from an iteration variable on:
`for (...; iter.data != NULL; iter = get_next_split(iter, buffer, split_char)) body`. -/
def split_by_from {σ : Type} (mem : List Nat) (buffer : byte_span_t) (split_char : Nat)
    (body : σ → byte_span_t → Option σ) : Nat → byte_span_t → σ → Option σ
  | 0, _, _ => none
  | fuel + 1, iter, st =>
    match iter.data with
    | none => some st
    | some _ =>
      match body st iter with
      | none => none
      | some st1 =>
        match get_next_split mem iter buffer split_char with
        | none => none
        | some next => split_by_from mem buffer split_char body fuel next st1

/-- The macro `split_by`: the iteration variable starts at `get_first_split(buffer, split_char)`. -/
def split_by {σ : Type} (mem : List Nat) (buffer : byte_span_t) (split_char : Nat)
    (body : σ → byte_span_t → Option σ) (fuel : Nat) (st : σ) : Option σ :=
  match get_first_split mem buffer split_char with
  | none => none
  | some iter => split_by_from mem buffer split_char body fuel iter st

/-- The spans visited by a `split_by` loop, in order. -/
def split_by_spans (mem : List Nat) (buffer : byte_span_t) (split_char : Nat) (fuel : Nat) :
    Option (List byte_span_t) :=
  split_by mem buffer split_char (fun acc sp => some (acc ++ [sp])) fuel []

/-- The span of a whole buffer `B`: data at the start of the storage, count its length. -/
def whole (B : List Nat) : byte_span_t := { data := some 0, count := B.length }

/-- The bytes a span views in `mem`. -/
def span_bytes (mem : List Nat) (sp : byte_span_t) : List Nat :=
  match sp.data with
  | none => []
  | some off => (mem.drop off).take sp.count

/-! ## wsr.c: the scanner -/

/-- The enum `scan_phase_t`. -/
inductive scan_phase_t where
  | SCAN_PHASE_LOOK_FOR_JPEG
  | SCAN_PHASE_CHECK_BASE_64
  | SCAN_PHASE_LOOK_FOR_IMAGE_NAME
  | SCAN_PHASE_FIND_IMAGE_DATA_START
  | SCAN_PHASE_READ_JPEG
  deriving DecidableEq, Repr

open scan_phase_t

/-- The constant `CONTENT_TYPE_JPEG_LINE`. -/
def CONTENT_TYPE_JPEG_LINE : str_t := cstr "Content-Type: image/jpeg"

/-- The constant `BASE_64_ENCODING_HEADER_LINE`. -/
def BASE_64_ENCODING_HEADER_LINE : str_t := cstr "Content-Transfer-Encoding: base64"

/-- The macro `assert(e)`: the program aborts when `e` is false. -/
def c_assert (e : Bool) : Option Unit := if e then some () else none

/-- The cast `(char*)span.data`: the bytes stored from the data pointer on (none behind `NULL`). -/
def span_chars (mem : List Nat) (sp : byte_span_t) : List Nat :=
  match sp.data with
  | none => []
  | some off => mem.drop off

/-- The body of the `split_by` loop of `count_base64_jpgs`, on the pair of
`current_scan_phase` and `image_count`. -/
def scan_line (mem : List Nat) (st : scan_phase_t × Nat) (next_line_bytes : byte_span_t) :
    Option (scan_phase_t × Nat) :=
  let next_line : str_t :=
    { bytes := span_chars mem next_line_bytes, len := next_line_bytes.count }
  match st.1 with
  | SCAN_PHASE_LOOK_FOR_JPEG =>
    if str_starts_with next_line CONTENT_TYPE_JPEG_LINE then
      some (SCAN_PHASE_CHECK_BASE_64, st.2)
    else some st
  | SCAN_PHASE_CHECK_BASE_64 =>
    if str_starts_with next_line BASE_64_ENCODING_HEADER_LINE then
      some (SCAN_PHASE_LOOK_FOR_JPEG, size_add st.2 1)
    else some st
  | _ =>
    -- `assert("Unexpected scan phase err!")`: the operand is a string literal, a non-null pointer
    match c_assert true with
    | none => none
    | some _ => some st

/-- The function `count_base64_jpgs`, its loop run with the given fuel. -/
def count_base64_jpgs_fuel (fuel : Nat) (mem : List Nat) (wsr_buffer : byte_span_t) :
    Option Nat :=
  match split_by mem wsr_buffer 10 (scan_line mem) fuel (SCAN_PHASE_LOOK_FOR_JPEG, 0) with
  | none => none
  | some st => some st.2

/-- The function `count_base64_jpgs` on a buffer holding the bytes `B`; a buffer of `n` bytes
has fewer than `n + 1` lines, so `n + 2` rounds of the loop are enough. -/
def count_base64_jpgs (B : List Nat) : Option Nat :=
  count_base64_jpgs_fuel (B.length + 2) B (whole B)

/-! ## wsr.c: the command line -/

/-- The struct `run_options_t`. -/
structure run_options_t where
  file_path : str_t
  output_dir : str_t
  is_preview : Bool
  deriving DecidableEq, Repr

/-- The enum `parse_args_err_t`. -/
inductive parse_args_err_t where
  | PARSE_ARGS_SUCC
  | PARSE_ARGS_MISSING_INPUT_FILE
  | PARSE_ARGS_MISSING_OUTPUT_DIR
  deriving DecidableEq, Repr

open parse_args_err_t

/-- The struct `char_ptr_span_t` over `argv`: `data` is the index of the entry of `argv` the
pointer is at. -/
structure char_ptr_span_t where
  data : Nat
  count : Nat
  deriving DecidableEq, Repr

/-- The macro `SPAN_ADV` on a `char_ptr_span_t`. -/
def SPAN_ADV (span : char_ptr_span_t) : char_ptr_span_t :=
  { data := span.data + 1, count := size_sub span.count 1 }

/-- The macro `SPAN_FIRST` on a `char_ptr_span_t`. -/
def SPAN_FIRST (span : char_ptr_span_t) (cnt : Nat) : char_ptr_span_t :=
  { data := span.data, count := min span.count cnt }

/-- The function `cstr_eq`: `strcmp(a, b) == 0`, on the characters of two C strings (the bytes
before the terminating zero). -/
def cstr_eq (a b : List Nat) : Bool := decide (a = b)

/-- The function `make_str` on a C string (`none` is `NULL`); `malloc_ok` tells whether its
call of `malloc` returns a buffer. The zero `str_t` has no bytes and length 0. -/
def make_str (malloc_ok : Bool) (s : Option (List Nat)) : str_t :=
  match s with
  | none => { bytes := [], len := 0 }
  | some s =>
    let len := s.length
    if malloc_ok then { bytes := s ++ [0], len := len }
    else { bytes := [], len := 0 }

/-- The function `get_run_options_from_args`. The result holds the error code and the value
written to `out_run_options` (`none` when nothing is written); `argv` is the list of the
strings of the argument vector, read by index, and `argc` is taken non-negative. The two
flags tell whether the `malloc` calls of the two `make_str` calls return a buffer. -/
def get_run_options_from_args (malloc_ok1 malloc_ok2 : Bool) (argc : Nat)
    (argv : List (List Nat)) : Option (parse_args_err_t × Option run_options_t) :=
  let args : char_ptr_span_t := { data := 0, count := argc % SIZE_T_MOD }
  let args := SPAN_ADV args
  let args := SPAN_FIRST args 3
  match args.count with
  | 0 => some (PARSE_ARGS_MISSING_INPUT_FILE, none)
  | 1 => some (PARSE_ARGS_MISSING_OUTPUT_DIR, none)
  | _ =>
    let is_preview : Option Bool :=
      if args.count > 2 then
        match argv[args.data + 2]? with
        | none => none
        | some a => some (cstr_eq a (literal_bytes "--preview"))
      else some false
    match is_preview with
    | none => none
    | some is_preview =>
      let args := SPAN_FIRST args 2
      match c_assert (args.count == 2) with
      | none => none
      | some _ =>
        match argv[args.data + 0]?, argv[args.data + 1]? with
        | some file_path, some output_dir =>
          some (PARSE_ARGS_SUCC,
            some { file_path := make_str malloc_ok1 (some file_path),
                   output_dir := make_str malloc_ok2 (some output_dir),
                   is_preview := is_preview })
        | _, _ => none

/-- The function `print_usage_and_exit`: after printing the usage it calls `exit(1)`; the
value is the exit status of the process. -/
def print_usage_and_exit (_argc : Nat) (_argv : List (List Nat)) (_err_msg : str_t) : Int := 1

/-- The function `main`, as the exit status of the process (`none` when the program leaves
defined behaviour). The function `load_wsr_file` is input and output; it is a parameter that
gives the bytes of the file, or `none` when the loaded span has null data. A C string has at
least its terminating zero, so a `str_t` with no byte behind its pointer is the zero `str_t`
of `make_str`, whose pointer is `NULL`: the two `Log` calls that print `file_path.bytes` and
`output_dir.bytes` with `%s` read through that pointer. -/
def main (malloc_ok1 malloc_ok2 : Bool) (load_wsr_file : str_t → Option (List Nat))
    (argc : Nat) (argv : List (List Nat)) : Option Int :=
  (get_run_options_from_args malloc_ok1 malloc_ok2 argc argv).bind fun parse_result =>
    match parse_result.1 with
    | PARSE_ARGS_MISSING_INPUT_FILE =>
      some (print_usage_and_exit argc argv (cstr "Missing input file parameter"))
    | PARSE_ARGS_MISSING_OUTPUT_DIR =>
      some (print_usage_and_exit argc argv (cstr "Missing input file parameter"))
    | PARSE_ARGS_SUCC =>
      match parse_result.2 with
      | none => none
      | some run_options =>
        if run_options.file_path.bytes = [] then none
        else if run_options.output_dir.bytes = [] then none
        else
          match load_wsr_file run_options.file_path with
          | none => some 1
          | some wsr_buffer =>
            match count_base64_jpgs wsr_buffer with
            | none => none
            | some _ => some 0

/-! ## Specification-side definitions -/

/-- The line that starts a list of bytes: its leading separators dropped, then the
bytes up to the next separator. -/
def first_line (s : Nat) (l : List Nat) : List Nat :=
  (l.dropWhile (· = s)).takeWhile (· ≠ s)

/-- The maximal non-empty runs of bytes other than `s` in `l`, in order, as spans whose
offsets count from `off`. -/
def runs (s : Nat) (off : Nat) (l : List Nat) : List byte_span_t :=
  match l with
  | [] => []
  | b :: t =>
    if b = s then runs s (off + 1) t
    else
      { data := some off, count := (t.takeWhile (· ≠ s)).length + 1 }
        :: runs s (off + 1 + (t.takeWhile (· ≠ s)).length) (t.dropWhile (· ≠ s))
termination_by l.length
decreasing_by
  · simp
  · have := (List.dropWhile_sublist (l := t) (fun x => decide (x ≠ s))).length_le
    simp only [List.length_cons]
    omega

/-- The `n` bytes of `B` from offset `o` on are a maximal non-empty run of bytes other than
`s`: no byte of the run is `s`, and the run is bounded on each side by an `s` or an end of `B`. -/
def is_maximal_run (B : List Nat) (s o n : Nat) : Prop :=
  0 < n ∧ o + n ≤ B.length ∧ (∀ i, i < n → B[o + i]? ≠ some s) ∧
    (o = 0 ∨ B[o - 1]? = some s) ∧ (o + n = B.length ∨ B[o + n]? = some s)

instance (B : List Nat) (s o n : Nat) : Decidable (is_maximal_run B s o n) := by
  unfold is_maximal_run; infer_instance

/-- The span `a` ends strictly before the span `b` starts. -/
def ends_before (a b : byte_span_t) : Prop :=
  match a.data, b.data with
  | some oa, some ob => oa + a.count < ob
  | _, _ => False

instance (a b : byte_span_t) : Decidable (ends_before a b) := by
  unfold ends_before; split <;> infer_instance

/-- The lines of a list of bytes: its maximal non-empty runs of bytes other than `s`, in order. -/
def line_list (s : Nat) (l : List Nat) : List (List Nat) :=
  match l with
  | [] => []
  | b :: t =>
    if b = s then line_list s t
    else (b :: t.takeWhile (· ≠ s)) :: line_list s (t.dropWhile (· ≠ s))
termination_by l.length
decreasing_by
  · simp
  · have := (List.dropWhile_sublist (l := t) (fun x => decide (x ≠ s))).length_le
    simp only [List.length_cons]
    omega

/-- A list of bytes with its leading and its trailing run of `s` removed. -/
def strip_separators (s : Nat) (B : List Nat) : List Nat :=
  (B.dropWhile (· = s)).rdropWhile (· = s)

/-- A list of bytes with every run of `s` collapsed to a single `s`: an `s` that is followed
by another `s` is dropped. -/
def collapse_runs (s : Nat) : List Nat → List Nat
  | [] => []
  | [a] => [a]
  | a :: b :: t => if a = s ∧ b = s then collapse_runs s (b :: t) else a :: collapse_runs s (b :: t)

/-- The two states of the transition table of the scan state machine. -/
inductive spec_state where
  | LOOK_FOR_JPEG_HEADER
  | CHECK_BASE64_HEADER
  deriving DecidableEq, Repr

open spec_state

/-- The bytes of the header `Content-Type: image/jpeg`. -/
def JPEG_HEADER : List Nat := literal_bytes "Content-Type: image/jpeg"

/-- The bytes of the header `Content-Transfer-Encoding: base64`. -/
def BASE64_HEADER : List Nat := literal_bytes "Content-Transfer-Encoding: base64"

/-- One row of the transition table, on a state, a count and a line. -/
def spec_step (st : spec_state × Nat) (line : List Nat) : spec_state × Nat :=
  match st.1 with
  | LOOK_FOR_JPEG_HEADER =>
    if JPEG_HEADER <+: line then (CHECK_BASE64_HEADER, st.2) else st
  | CHECK_BASE64_HEADER =>
    if BASE64_HEADER <+: line then (LOOK_FOR_JPEG_HEADER, st.2 + 1) else st

/-- The transition table folded over a list of lines, from `LOOK_FOR_JPEG_HEADER` and
count 0; the result is the count. -/
def spec_count (lines : List (List Nat)) : Nat :=
  (lines.foldl spec_step (LOOK_FOR_JPEG_HEADER, 0)).2

/-- The scan phase of the program that stands for a state of the table. -/
def phase_of : spec_state → scan_phase_t
  | LOOK_FOR_JPEG_HEADER => SCAN_PHASE_LOOK_FOR_JPEG
  | CHECK_BASE64_HEADER => SCAN_PHASE_CHECK_BASE_64

/-- The body of the scan loop, recording the scan phase each round of the loop is entered
with: the second component is the list of those phases so far. -/
def scan_line_traced (mem : List Nat) (acc : (scan_phase_t × Nat) × List scan_phase_t)
    (next_line_bytes : byte_span_t) : Option ((scan_phase_t × Nat) × List scan_phase_t) :=
  match scan_line mem acc.1 next_line_bytes with
  | none => none
  | some st => some (st, acc.2 ++ [acc.1.1])

/-- The number 1 in phase `CHECK_BASE64_HEADER` and 0 in phase `LOOK_FOR_JPEG_HEADER`: the
JPEG header lines seen and not yet counted. -/
def pending : spec_state → Nat
  | LOOK_FOR_JPEG_HEADER => 0
  | CHECK_BASE64_HEADER => 1

theorem getElem?_mid (pre : List Nat) (b : Nat) (t post : List Nat) :
    (pre ++ (b :: t) ++ post)[pre.length]? = some b := by
  rw [List.append_assoc, List.getElem?_append_right (le_refl _)]
  simp

theorem mid_shift (pre : List Nat) (b : Nat) (t post : List Nat) :
    pre ++ (b :: t) ++ post = (pre ++ [b]) ++ t ++ post := by simp

theorem skip_leading_append (s : Nat) (l pre post : List Nat) :
    skip_leading (pre ++ l ++ post) s pre.length l.length
      = some { data := some (pre.length + (l.takeWhile (· = s)).length),
               count := (l.dropWhile (· = s)).length } := by
  induction l generalizing pre with
  | nil => simp [skip_leading]
  | cons b t ih =>
    rw [List.length_cons, skip_leading, getElem?_mid]
    by_cases hb : b = s
    · have h := ih (pre ++ [b])
      rw [← mid_shift, List.length_append, List.length_singleton] at h
      simp [hb, List.takeWhile_cons, List.dropWhile_cons] at h ⊢
      rw [h]; simp; omega
    · simp [hb, List.takeWhile_cons, List.dropWhile_cons]

theorem memchr_append (c : Nat) (l pre post : List Nat) :
    memchr (pre ++ l ++ post) c pre.length l.length
      = some (if c ∈ l then some (pre.length + (l.takeWhile (· ≠ c)).length) else none) := by
  induction l generalizing pre with
  | nil => simp [memchr]
  | cons b t ih =>
    rw [List.length_cons, memchr, getElem?_mid]
    by_cases hb : b = c
    · simp [hb, List.takeWhile_cons]
    · have h := ih (pre ++ [b])
      rw [← mid_shift, List.length_append, List.length_singleton] at h
      have hb2 : ¬ c = b := fun e => hb e.symm
      simp [hb, hb2, List.takeWhile_cons] at h ⊢
      rw [h]; split <;> simp; omega

theorem first_line_eq_nil_iff (s : Nat) (l : List Nat) :
    first_line s l = [] ↔ l.dropWhile (· = s) = [] := by
  unfold first_line
  constructor
  · intro h
    cases hd : l.dropWhile (· = s) with
    | nil => rfl
    | cons b t =>
      have hb := List.head_dropWhile_not (· = s) l (by rw [hd]; simp)
      simp [hd] at hb
      rw [hd, List.takeWhile_cons] at h
      simp [hb] at h
  · intro h; rw [h]; rfl

theorem get_first_split_append (s : Nat) (l pre post : List Nat) :
    get_first_split (pre ++ l ++ post) { data := some pre.length, count := l.length } s
      = some (if first_line s l = [] then { data := none, count := 0 }
              else { data := some (pre.length + (l.takeWhile (· = s)).length),
                     count := (first_line s l).length }) := by
  unfold get_first_split
  simp only [skip_leading_append]
  by_cases h0 : l.dropWhile (· = s) = []
  · simp [(first_line_eq_nil_iff s l).2 h0, h0]
  · have hne : first_line s l ≠ [] := fun e => h0 ((first_line_eq_nil_iff s l).1 e)
    have hlen : (l.dropWhile (· = s)).length ≠ 0 := by
      intro e; exact h0 (List.length_eq_zero.1 e)
    have hm := memchr_append s (l.dropWhile (· = s)) (pre ++ l.takeWhile (· = s)) post
    rw [List.append_assoc pre, List.takeWhile_append_dropWhile, List.length_append] at hm
    simp only [hlen, hne, if_false, hm]
    by_cases hs : s ∈ l.dropWhile (· = s)
    · simp [hs, first_line]
    · have hall : (l.dropWhile (· = s)).takeWhile (· ≠ s) = l.dropWhile (· = s) := by
        rw [List.takeWhile_eq_self_iff]
        intro x hx
        have : x ≠ s := fun e => hs (e ▸ hx)
        simpa using this
      have hl := congrArg List.length hall
      simp [hs, first_line]
      simpa using hl.symm

theorem size_sub_eq (a b : Nat) (hb : b ≤ a) (ha : a < 2 ^ 64) : size_sub a b = a - b := by
  unfold size_sub SIZE_T_MOD
  have hb2 : b % 2 ^ 64 = b := Nat.mod_eq_of_lt (by omega)
  rw [hb2]
  have : a + (2 ^ 64 - b) = (a - b) + 2 ^ 64 := by omega
  rw [this, Nat.add_mod_right]
  exact Nat.mod_eq_of_lt (by omega)

theorem storage_split (mem : List Nat) (o n : Nat) :
    mem = mem.take o ++ (mem.drop o).take n ++ mem.drop (o + n) := by
  rw [List.append_assoc, ← List.drop_drop, List.take_append_drop, List.take_append_drop]

theorem get_first_split_inbounds (mem : List Nat) (o n s : Nat) (h : o + n ≤ mem.length) :
    get_first_split mem { data := some o, count := n } s
      = some (if first_line s ((mem.drop o).take n) = [] then { data := none, count := 0 }
              else { data := some (o + (((mem.drop o).take n).takeWhile (· = s)).length),
                     count := (first_line s ((mem.drop o).take n)).length }) := by
  have h1 : (mem.take o).length = o := by rw [List.length_take]; omega
  have h2 : ((mem.drop o).take n).length = n := by
    rw [List.length_take, List.length_drop]; omega
  have key := get_first_split_append s ((mem.drop o).take n) (mem.take o) (mem.drop (o + n))
  rw [← storage_split, h1, h2] at key
  exact key

theorem runs_nil (s off : Nat) : runs s off [] = [] := by
  rw [runs]

theorem runs_cons_sep (s off : Nat) (t : List Nat) : runs s off (s :: t) = runs s (off + 1) t := by
  rw [runs]; simp

theorem runs_cons_ne (s off b : Nat) (t : List Nat) (hb : b ≠ s) :
    runs s off (b :: t)
      = { data := some off, count := (t.takeWhile (· ≠ s)).length + 1 }
        :: runs s (off + 1 + (t.takeWhile (· ≠ s)).length) (t.dropWhile (· ≠ s)) := by
  rw [runs]; simp [hb]

theorem get_first_split_suffix (s : Nat) (l pre : List Nat) :
    get_first_split (pre ++ l) { data := some pre.length, count := l.length } s
      = some (if first_line s l = [] then { data := none, count := 0 }
              else { data := some (pre.length + (l.takeWhile (· = s)).length),
                     count := (first_line s l).length }) := by
  have h := get_first_split_append s l pre []
  rwa [List.append_nil] at h

theorem first_line_cons_sep (s : Nat) (t : List Nat) : first_line s (s :: t) = first_line s t := by
  simp [first_line, List.dropWhile_cons]

theorem first_line_cons_ne (s b : Nat) (t : List Nat) (hb : b ≠ s) :
    first_line s (b :: t) = b :: t.takeWhile (· ≠ s) := by
  simp [first_line, List.dropWhile_cons, List.takeWhile_cons, hb]

theorem get_next_split_whole (mem : List Nat) (o n s : Nat) (h : o + n ≤ mem.length)
    (hm : mem.length < 2 ^ 64) :
    get_next_split mem { data := some o, count := n } (whole mem) s
      = get_first_split mem { data := some (o + n), count := mem.length - (o + n) } s := by
  unfold get_next_split whole
  have h1 : n ≤ mem.length := by omega
  have h2 : o ≤ 0 + mem.length := by omega
  simp only [h1, h2, Nat.zero_le, not_true_eq_false, if_false, Nat.sub_zero]
  rw [size_sub_eq _ _ h1 hm, size_sub_eq _ _ (by omega) (by omega)]
  congr 2
  omega

theorem split_by_from_runs {σ : Type} (body : σ → byte_span_t → Option σ) (s : Nat) :
    ∀ (k : Nat) (l pre : List Nat) (fuel : Nat) (st : σ),
      l.length ≤ k → (pre ++ l).length < 2 ^ 64 → l.length < fuel →
      (get_first_split (pre ++ l) { data := some pre.length, count := l.length } s).bind
          (fun it => split_by_from (pre ++ l) (whole (pre ++ l)) s body fuel it st)
        = List.foldlM body st (runs s pre.length l) := by
  intro k
  induction k with
  | zero =>
    intro l pre fuel st hk _ hf
    have hl : l = [] := List.length_eq_zero.1 (by omega)
    subst hl
    obtain ⟨f, rfl⟩ : ∃ f, fuel = f + 1 := ⟨fuel - 1, by simp at hf; omega⟩
    rw [get_first_split_suffix, runs_nil]
    simp [first_line, split_by_from]
  | succ k ih =>
    intro l pre fuel st hk hm hf
    cases l with
    | nil =>
      obtain ⟨f, rfl⟩ : ∃ f, fuel = f + 1 := ⟨fuel - 1, by simp at hf; omega⟩
      rw [get_first_split_suffix, runs_nil]
      simp [first_line, split_by_from]
    | cons b t =>
      by_cases hb : b = s
      · subst hb
        have e : pre ++ b :: t = (pre ++ [b]) ++ t := by simp
        have hi := ih t (pre ++ [b]) fuel st (by simp at hk; omega) (by rw [← e]; exact hm)
          (by simp at hf; omega)
        have el : (pre ++ [b]).length = pre.length + 1 := by simp
        rw [el] at hi
        rw [runs_cons_sep, ← hi, ← e, get_first_split_suffix]
        have hi2 := get_first_split_suffix b t (pre ++ [b])
        rw [← e, el] at hi2
        rw [hi2, first_line_cons_sep]
        simp [List.takeWhile_cons, Nat.add_assoc, Nat.add_comm 1]
      · obtain ⟨f, rfl⟩ : ∃ f, fuel = f + 1 := ⟨fuel - 1, by simp at hf; omega⟩
        have hd := (List.dropWhile_sublist (l := t) (fun x => decide (x ≠ b))).length_le
        rw [get_first_split_suffix, runs_cons_ne s _ b t hb, first_line_cons_ne s b t hb]
        simp only [List.cons_ne_nil, if_false, Option.some_bind, List.foldlM_cons,
          List.length_cons]
        have htw : (b :: t).takeWhile (· = s) = [] := by simp [List.takeWhile_cons, hb]
        simp only [htw, List.length_nil, Nat.add_zero]
        rw [split_by_from]
        simp only []
        cases hbody : body st ⟨some pre.length, (t.takeWhile (· ≠ s)).length + 1⟩ with
        | none => rfl
        | some st1 =>
          have hsplit : t = t.takeWhile (· ≠ s) ++ t.dropWhile (· ≠ s) :=
            (List.takeWhile_append_dropWhile _ t).symm
          have hlen : t.length = (t.takeWhile (· ≠ s)).length + (t.dropWhile (· ≠ s)).length := by
            conv_lhs => rw [hsplit]
            rw [List.length_append]
          have e : pre ++ b :: t = (pre ++ b :: t.takeWhile (· ≠ s)) ++ t.dropWhile (· ≠ s) := by
            conv_lhs => rw [hsplit]
            simp
          have hds := (List.dropWhile_sublist (l := t) (fun x => decide (x ≠ s))).length_le
          have hi := ih (t.dropWhile (· ≠ s)) (pre ++ b :: t.takeWhile (· ≠ s)) f st1
            (by simp at hk; omega) (by rw [← e]; exact hm) (by simp at hf; omega)
          rw [← e] at hi
          have hn := get_next_split_whole (pre ++ b :: t) pre.length
            ((t.takeWhile (· ≠ s)).length + 1) s
            (by simp only [List.length_append, List.length_cons]; omega) hm
          have e1 : pre.length + ((t.takeWhile (· ≠ s)).length + 1)
              = (pre ++ b :: t.takeWhile (· ≠ s)).length := by
            rw [List.length_append, List.length_cons]
          have e2 : (pre ++ b :: t).length - (pre ++ b :: t.takeWhile (· ≠ s)).length
              = (t.dropWhile (· ≠ s)).length := by
            simp only [List.length_append, List.length_cons]; omega
          rw [e1, e2] at hn
          have e3 : pre.length + 1 + (t.takeWhile (· ≠ s)).length
              = (pre ++ b :: t.takeWhile (· ≠ s)).length := by
            simp only [List.length_append, List.length_cons]; omega
          simp only [Option.bind_eq_bind, Option.some_bind]
          rw [e3, ← hi, hn]
          cases get_first_split (pre ++ b :: t)
            { data := some (pre ++ b :: t.takeWhile (· ≠ s)).length,
              count := (t.dropWhile (· ≠ s)).length } s <;> rfl

theorem split_by_whole {σ : Type} (body : σ → byte_span_t → Option σ) (B : List Nat)
    (s fuel : Nat) (st : σ) (hB : B.length < 2 ^ 64) (hf : B.length < fuel) :
    split_by B (whole B) s body fuel st = List.foldlM body st (runs s 0 B) := by
  have h := split_by_from_runs body s B.length B [] fuel st (le_refl _) (by simpa using hB) hf
  simp only [List.nil_append, List.length_nil] at h
  rw [← h]
  unfold split_by whole
  cases get_first_split B { data := some 0, count := B.length } s <;> rfl

theorem foldlM_collect (L acc : List byte_span_t) :
    List.foldlM (fun (acc : List byte_span_t) sp => some (acc ++ [sp])) acc L = some (acc ++ L) := by
  induction L generalizing acc with
  | nil => simp
  | cons a L ih => simp [List.foldlM_cons, ih]

theorem split_by_spans_whole (B : List Nat) (s fuel : Nat) (hB : B.length < 2 ^ 64)
    (hf : B.length < fuel) : split_by_spans B (whole B) s fuel = some (runs s 0 B) := by
  unfold split_by_spans
  rw [split_by_whole _ B s fuel [] hB hf, foldlM_collect]
  rfl

theorem str_starts_with_iff (s pfx : str_t) :
    str_starts_with s pfx = true
      ↔ pfx.len ≤ s.len ∧ s.bytes.take pfx.len = pfx.bytes.take pfx.len := by
  unfold str_starts_with str_eq mem_eq
  by_cases h : s.len < pfx.len
  · simp [h]
  · simp [h]
    intro _; omega

theorem takeWhile_ne_get (s : Nat) (t : List Nat) :
    ∀ i, i < (t.takeWhile (· ≠ s)).length → t[i]? ≠ some s := by
  induction t with
  | nil => intro i hi; simp at hi
  | cons a t ih =>
    intro i hi
    by_cases ha : a = s
    · simp [List.takeWhile_cons, ha] at hi
    · cases i with
      | zero => simpa using ha
      | succ j =>
        simp [List.takeWhile_cons, ha] at hi
        simpa using ih j (by simpa using hi)

theorem dropWhile_ne_eq_drop (s : Nat) (t : List Nat) :
    t.dropWhile (· ≠ s) = t.drop (t.takeWhile (· ≠ s)).length := by
  induction t with
  | nil => rfl
  | cons a t ih =>
    by_cases ha : a = s
    · simp [List.takeWhile_cons, List.dropWhile_cons, ha]
    · simpa [List.takeWhile_cons, List.dropWhile_cons, ha] using ih

theorem takeWhile_ne_stop (s : Nat) (t : List Nat) :
    t[(t.takeWhile (· ≠ s)).length]? = none ∨ t[(t.takeWhile (· ≠ s)).length]? = some s := by
  induction t with
  | nil => left; rfl
  | cons a t ih =>
    by_cases ha : a = s
    · right; simp [List.takeWhile_cons, ha]
    · simpa [List.takeWhile_cons, ha] using ih

theorem drop_eq_cons_facts (B : List Nat) (p b : Nat) (t : List Nat) (h : B.drop p = b :: t) :
    B[p]? = some b ∧ B.drop (p + 1) = t ∧ p < B.length := by
  have h1 : (B.drop p)[0]? = some b := by rw [h]; simp
  rw [List.getElem?_drop] at h1
  have h2 : p < B.length := by
    by_contra hc
    rw [List.drop_eq_nil_of_le (by omega)] at h
    exact List.noConfusion h
  refine ⟨by simpa using h1, ?_, h2⟩
  have h3 : (B.drop p).drop 1 = t := by rw [h]; rfl
  rw [List.drop_drop] at h3
  rw [← h3]

theorem runs_invariant (B : List Nat) (s : Nat) :
    ∀ k p, B.length - p ≤ k → p ≤ B.length →
      (p = 0 ∨ B[p - 1]? = some s ∨ B[p]? = some s ∨ B[p]? = none) →
      (∀ sp ∈ runs s p (B.drop p), ∃ o n, sp = ⟨some o, n⟩ ∧ p ≤ o ∧ is_maximal_run B s o n) ∧
      (∀ o n, p ≤ o → is_maximal_run B s o n →
        (⟨some o, n⟩ : byte_span_t) ∈ runs s p (B.drop p)) ∧
      (runs s p (B.drop p)).Pairwise ends_before := by
  intro k
  induction k with
  | zero =>
    intro p hk hp _
    have hnil : B.drop p = [] := List.drop_eq_nil_of_le (by omega)
    rw [hnil, runs_nil]
    refine ⟨by simp, ?_, List.Pairwise.nil⟩
    intro o n ho hr
    obtain ⟨h1, h2, _⟩ := hr
    omega
  | succ k ih =>
    intro p hk hp hbd
    cases hd : B.drop p with
    | nil =>
      have hlen : B.length ≤ p := List.drop_eq_nil_iff.1 hd
      rw [runs_nil]
      refine ⟨by simp, ?_, List.Pairwise.nil⟩
      intro o n ho hr
      obtain ⟨h1, h2, _⟩ := hr
      omega
    | cons b t =>
      obtain ⟨hbp, ht, hplt⟩ := drop_eq_cons_facts B p b t hd
      by_cases hb : b = s
      · subst hb
        rw [runs_cons_sep, ← ht]
        obtain ⟨iA, iB, iC⟩ := ih (p + 1) (by omega) (by omega)
          (Or.inr (Or.inl (by simpa using hbp)))
        refine ⟨?_, ?_, iC⟩
        · intro sp hsp
          obtain ⟨o, n, e, ho, hr⟩ := iA sp hsp
          exact ⟨o, n, e, by omega, hr⟩
        · intro o n ho hr
          have hne : o ≠ p := by
            intro e
            subst e
            exact hr.2.2.1 0 hr.1 (by simpa using hbp)
          exact iB o n (by omega) hr
      · -- the run that starts at `p`
        have hm : (t.takeWhile (· ≠ s)).length ≤ t.length :=
          (List.takeWhile_sublist (l := t) _).length_le
        have htl : t.length = B.length - (p + 1) := by rw [← ht, List.length_drop]
        have htget : ∀ j, t[j]? = B[p + 1 + j]? := by
          intro j; rw [← ht, List.getElem?_drop]
        have F1 : ∀ i, i < (t.takeWhile (· ≠ s)).length + 1 → B[p + i]? ≠ some s := by
          intro i hi
          cases i with
          | zero =>
            rw [Nat.add_zero, hbp]
            intro e; exact hb (Option.some.inj e)
          | succ j =>
            have := takeWhile_ne_get s t j (by omega)
            rw [htget] at this
            rwa [show p + (j + 1) = p + 1 + j by omega]
        have F2 : B[p + 1 + (t.takeWhile (· ≠ s)).length]? = none
            ∨ B[p + 1 + (t.takeWhile (· ≠ s)).length]? = some s := by
          have := takeWhile_ne_stop s t
          rwa [htget] at this
        have F3 : p = 0 ∨ B[p - 1]? = some s := by
          rcases hbd with h | h | h | h
          · exact Or.inl h
          · exact Or.inr h
          · rw [hbp] at h; exact absurd (Option.some.inj h) hb
          · rw [hbp] at h; exact Option.noConfusion h
        have hdrop : t.dropWhile (· ≠ s) = B.drop (p + 1 + (t.takeWhile (· ≠ s)).length) := by
          rw [dropWhile_ne_eq_drop, ← ht, List.drop_drop]
        rw [runs_cons_ne s p b t hb, hdrop]
        generalize hmdef : (t.takeWhile (· ≠ s)).length = m at hm F1 F2 ⊢
        obtain ⟨iA, iB, iC⟩ := ih (p + 1 + m) (by omega) (by omega)
          (by rcases F2 with h | h
              · exact Or.inr (Or.inr (Or.inr h))
              · exact Or.inr (Or.inr (Or.inl h)))
        have hhead : is_maximal_run B s p (m + 1) := by
          refine ⟨by omega, by omega, F1, F3, ?_⟩
          rcases F2 with h | h
          · left
            have := List.getElem?_eq_none_iff.1 h
            omega
          · right
            rwa [show p + (m + 1) = p + 1 + m by omega]
        have hstrict : ∀ o n, p + 1 + m ≤ o → is_maximal_run B s o n → p + (m + 1) < o := by
          intro o n ho hr
          by_contra hc
          have e : o = p + 1 + m := by omega
          subst e
          have h0 := hr.2.2.1 0 hr.1
          rw [Nat.add_zero] at h0
          rcases F2 with h | h
          · have := List.getElem?_eq_none_iff.1 h
            have := hr.1
            have := hr.2.1
            omega
          · exact h0 h
        refine ⟨?_, ?_, ?_⟩
        · intro sp hsp
          rcases List.mem_cons.1 hsp with e | hsp
          · exact ⟨p, m + 1, e, le_refl _, hhead⟩
          · obtain ⟨o, n, e, ho, hr⟩ := iA sp hsp
            exact ⟨o, n, e, by omega, hr⟩
        · intro o n ho hr
          by_cases h1 : o = p
          · subst h1
            have hn : n = m + 1 := by
              by_contra hne
              rcases Nat.lt_or_gt_of_ne hne with hlt | hgt
              · rcases hr.2.2.2.2 with h | h
                · omega
                · exact F1 n hlt h
              · have h2 := hr.2.2.1 (m + 1) hgt
                rw [show o + (m + 1) = o + 1 + m by omega] at h2
                rcases F2 with h | h
                · have := List.getElem?_eq_none_iff.1 h
                  have := hr.2.1
                  omega
                · exact h2 h
            subst hn
            exact List.mem_cons_self _ _
          · by_cases h2 : o < p + 1 + m
            · exfalso
              rcases hr.2.2.2.1 with h | h
              · omega
              · have := F1 (o - 1 - p) (by omega)
                rw [show p + (o - 1 - p) = o - 1 by omega] at this
                exact this h
            · exact List.mem_cons_of_mem _ (iB o n (by omega) hr)
        · refine List.Pairwise.cons ?_ iC
          intro sp hsp
          obtain ⟨o, n, e, ho, hr⟩ := iA sp hsp
          subst e
          exact hstrict o n ho hr

theorem runs_whole_spec (B : List Nat) (s : Nat) :
    (∀ sp ∈ runs s 0 B, ∃ o n, sp = ⟨some o, n⟩ ∧ is_maximal_run B s o n) ∧
    (∀ o n, is_maximal_run B s o n → (⟨some o, n⟩ : byte_span_t) ∈ runs s 0 B) ∧
    (runs s 0 B).Pairwise ends_before := by
  obtain ⟨hA, hB, hC⟩ := runs_invariant B s B.length 0 (by omega) (by omega) (Or.inl rfl)
  rw [List.drop_zero] at hA hB hC
  refine ⟨?_, fun o n hr => hB o n (Nat.zero_le _) hr, hC⟩
  intro sp hsp
  obtain ⟨o, n, e, _, hr⟩ := hA sp hsp
  exact ⟨o, n, e, hr⟩

theorem maximal_run_bytes (B : List Nat) (s o n : Nat) (hr : is_maximal_run B s o n) :
    (span_bytes B ⟨some o, n⟩).length = n ∧ s ∉ span_bytes B ⟨some o, n⟩ := by
  obtain ⟨h1, h2, h3, _, _⟩ := hr
  unfold span_bytes
  simp only []
  constructor
  · rw [List.length_take, List.length_drop]; omega
  · intro hmem
    obtain ⟨i, hi⟩ := List.mem_iff_getElem?.1 hmem
    rw [List.getElem?_take] at hi
    by_cases hin : i < n
    · rw [if_pos hin, List.getElem?_drop] at hi
      exact h3 i hin hi
    · rw [if_neg hin] at hi
      exact Option.noConfusion hi

/-- C1: for every buffer `B` (of a length a `size_t` holds) and separator `s`, the `split_by`
loop, given fuel beyond the length of `B`, ends and has visited a list `L` of spans such that:
every visited span has non-null data and is a maximal non-empty run of bytes other than `s` at
its offset in `B`; every such maximal run is visited; the spans are in left-to-right order,
each ending strictly before the next one starts; and no visited line is empty or holds `s`. -/
theorem split_by_visits_exactly_maximal_runs (B : List Nat) (s fuel : Nat)
    (hB : B.length < 2 ^ 64) (hf : B.length < fuel) :
    ∃ L, split_by_spans B (whole B) s fuel = some L ∧
      (∀ sp ∈ L, ∃ o n, sp = ⟨some o, n⟩ ∧ is_maximal_run B s o n) ∧
      (∀ o n, is_maximal_run B s o n → (⟨some o, n⟩ : byte_span_t) ∈ L) ∧
      L.Pairwise ends_before ∧
      (∀ sp ∈ L, span_bytes B sp ≠ [] ∧ s ∉ span_bytes B sp) := by
  obtain ⟨hA, hC, hP⟩ := runs_whole_spec B s
  refine ⟨runs s 0 B, split_by_spans_whole B s fuel hB hf, hA, hC, hP, ?_⟩
  intro sp hsp
  obtain ⟨o, n, e, hr⟩ := hA sp hsp
  subst e
  obtain ⟨hl, hs⟩ := maximal_run_bytes B s o n hr
  refine ⟨?_, hs⟩
  intro hnil
  rw [hnil] at hl
  have := hr.1
  simp at hl
  omega

/-- Witness of C1 on the buffer `[1, 2, 0, 0, 3]` split at `0`. -/
theorem split_by_visits_exactly_maximal_runs_witness :
    [1, 2, 0, 0, 3].length < 2 ^ 64 ∧ [1, 2, 0, 0, 3].length < 6 ∧
    ∃ L, split_by_spans [1, 2, 0, 0, 3] (whole [1, 2, 0, 0, 3]) 0 6 = some L ∧
      (∀ sp ∈ L, ∃ o n, sp = ⟨some o, n⟩ ∧ is_maximal_run [1, 2, 0, 0, 3] 0 o n) ∧
      (∀ o n, is_maximal_run [1, 2, 0, 0, 3] 0 o n → (⟨some o, n⟩ : byte_span_t) ∈ L) ∧
      L.Pairwise ends_before ∧
      (∀ sp ∈ L, span_bytes [1, 2, 0, 0, 3] sp ≠ [] ∧ 0 ∉ span_bytes [1, 2, 0, 0, 3] sp) :=
  ⟨by decide, by decide,
    split_by_visits_exactly_maximal_runs [1, 2, 0, 0, 3] 0 6 (by decide) (by decide)⟩

theorem span_bytes_mid (pre x post : List Nat) :
    span_bytes (pre ++ x ++ post) ⟨some pre.length, x.length⟩ = x := by
  unfold span_bytes
  simp only []
  rw [List.append_assoc, List.drop_left, List.take_left]

/-- C3: for a buffer span that lies inside its storage (`o + n ≤ mem.length`),
`get_first_split` returns a span `r`; the bytes of `r` are
`takeWhile (≠ s) (dropWhile (= s) buffer)`; `r` is the null span (null data, count 0) exactly
when every byte of the buffer is `s`; otherwise `r` is non-empty and starts at the first byte
of the buffer that is not `s`. A null buffer of count 0 gives the null span as well. -/
theorem get_first_split_spec (mem : List Nat) (o n s : Nat) (h : o + n ≤ mem.length) :
    (∃ r, get_first_split mem ⟨some o, n⟩ s = some r ∧
      span_bytes mem r
        = ((span_bytes mem ⟨some o, n⟩).dropWhile (· = s)).takeWhile (· ≠ s) ∧
      (r.data = none ↔ ∀ b ∈ span_bytes mem ⟨some o, n⟩, b = s) ∧
      (r.data = none → r.count = 0) ∧
      (r.data ≠ none →
        r.data = some (o + ((span_bytes mem ⟨some o, n⟩).takeWhile (· = s)).length) ∧
        0 < r.count)) ∧
    get_first_split mem ⟨none, 0⟩ s = some ⟨none, 0⟩ := by
  refine ⟨?_, rfl⟩
  have hv : span_bytes mem ⟨some o, n⟩ = (mem.drop o).take n := rfl
  rw [hv]
  generalize hview : (mem.drop o).take n = view
  have key := get_first_split_inbounds mem o n s h
  rw [hview] at key
  have hfl : first_line s view = (view.dropWhile (· = s)).takeWhile (· ≠ s) := rfl
  have hall : first_line s view = [] ↔ ∀ b ∈ view, b = s := by
    rw [first_line_eq_nil_iff, List.dropWhile_eq_nil_iff]
    simp
  by_cases hnil : first_line s view = []
  · rw [if_pos hnil] at key
    refine ⟨_, key, ?_, ?_, fun _ => rfl, fun hc => absurd rfl hc⟩
    · rw [← hfl, hnil]; rfl
    · simp only [true_iff]; exact hall.1 hnil
  · rw [if_neg hnil] at key
    refine ⟨_, key, ?_, ?_, fun hc => Option.noConfusion hc, fun _ => ⟨rfl, ?_⟩⟩
    · rw [← hfl]
      have hlen : (mem.take o).length = o := by rw [List.length_take]; omega
      have e1 : view = view.takeWhile (· = s) ++ first_line s view
          ++ (view.dropWhile (· = s)).dropWhile (· ≠ s) := by
        rw [List.append_assoc, hfl, List.takeWhile_append_dropWhile,
          List.takeWhile_append_dropWhile]
      have e2 : ∃ P Q, mem = P ++ first_line s view ++ Q
          ∧ P.length = o + (view.takeWhile (· = s)).length := by
        refine ⟨mem.take o ++ view.takeWhile (· = s),
          (view.dropWhile (· = s)).dropWhile (· ≠ s) ++ mem.drop (o + n), ?_, ?_⟩
        · conv_lhs => rw [storage_split mem o n, hview, e1]
          simp only [List.append_assoc]
        · rw [List.length_append, hlen]
      obtain ⟨P, Q, hmem, hPlen⟩ := e2
      rw [← hPlen, hmem]
      exact span_bytes_mid _ _ _
    · constructor
      · intro hc; exact Option.noConfusion hc
      · intro hc; exact absurd (hall.2 hc) hnil
    · exact List.length_pos.2 hnil

/-- Witness of C3 on the storage `[0, 0, 5, 6, 0, 7]` and its span of offset 1 and count 4. -/
theorem get_first_split_spec_witness :
    1 + 4 ≤ [0, 0, 5, 6, 0, 7].length ∧
    ((∃ r, get_first_split [0, 0, 5, 6, 0, 7] ⟨some 1, 4⟩ 0 = some r ∧
      span_bytes [0, 0, 5, 6, 0, 7] r
        = ((span_bytes [0, 0, 5, 6, 0, 7] ⟨some 1, 4⟩).dropWhile (· = 0)).takeWhile (· ≠ 0) ∧
      (r.data = none ↔ ∀ b ∈ span_bytes [0, 0, 5, 6, 0, 7] ⟨some 1, 4⟩, b = 0) ∧
      (r.data = none → r.count = 0) ∧
      (r.data ≠ none →
        r.data = some (1 + ((span_bytes [0, 0, 5, 6, 0, 7] ⟨some 1, 4⟩).takeWhile
          (· = 0)).length) ∧
        0 < r.count)) ∧
    get_first_split [0, 0, 5, 6, 0, 7] ⟨none, 0⟩ 0 = some ⟨none, 0⟩) :=
  ⟨by decide, get_first_split_spec [0, 0, 5, 6, 0, 7] 1 4 0 (by decide)⟩

/-- C4: for a full span of count `cnt` (a `size_t` value) at address `f` and a current span
of offset `o` and count `n` inside it (`o + n ≤ cnt`), `get_next_split` is `get_first_split`
of the remainder, which starts right after the current span and has count `cnt - o - n`. -/
theorem get_next_split_delegates (mem : List Nat) (f cnt o n s : Nat) (h : o + n ≤ cnt)
    (hc : cnt < 2 ^ 64) :
    get_next_split mem ⟨some (f + o), n⟩ ⟨some f, cnt⟩ s
      = get_first_split mem ⟨some (f + o + n), cnt - o - n⟩ s := by
  unfold get_next_split
  have h1 : n ≤ cnt := by omega
  have h2 : f ≤ f + o := by omega
  have h3 : f + o ≤ f + cnt := by omega
  simp only [h1, h2, h3, not_true_eq_false, if_false]
  rw [size_sub_eq _ _ h1 hc, size_sub_eq _ _ (by omega) (by omega)]
  congr 2
  omega

/-- Witness of C4 on the storage `[1, 0, 2, 0, 3]`, whole buffer, current span `[2]`. -/
theorem get_next_split_delegates_witness :
    1 + 1 ≤ 5 ∧ 5 < 2 ^ 64 ∧
    get_next_split [1, 0, 2, 0, 3] ⟨some (0 + 2), 1⟩ ⟨some 0, 5⟩ 0
      = get_first_split [1, 0, 2, 0, 3] ⟨some (0 + 2 + 1), 5 - 2 - 1⟩ 0 :=
  ⟨by decide, by decide, get_next_split_delegates [1, 0, 2, 0, 3] 0 5 2 1 0 (by decide) (by decide)⟩

/-- C7: `str_starts_with s pfx` holds exactly when `s` is at least as long as `pfx` and the
first `pfx.len` bytes of `s` are those of `pfx`; for byte lists `S` and `P` this is
`P.length ≤ S.length` and `S.take P.length = P`. The JPEG header followed by a carriage return
matches the JPEG header; the header after a blank, in lower case, or cut short does not. -/
theorem str_starts_with_spec :
    (∀ s pfx : str_t, str_starts_with s pfx = true
      ↔ pfx.len ≤ s.len ∧ s.bytes.take pfx.len = pfx.bytes.take pfx.len) ∧
    (∀ S P : List Nat, str_starts_with ⟨S, S.length⟩ ⟨P, P.length⟩ = true
      ↔ P.length ≤ S.length ∧ S.take P.length = P) ∧
    str_starts_with (cstr "Content-Type: image/jpeg\r") CONTENT_TYPE_JPEG_LINE = true ∧
    str_starts_with (cstr " Content-Type: image/jpeg") CONTENT_TYPE_JPEG_LINE = false ∧
    str_starts_with (cstr "content-type: image/jpeg") CONTENT_TYPE_JPEG_LINE = false ∧
    str_starts_with (cstr "Content-Type: image/jpe") CONTENT_TYPE_JPEG_LINE = false := by
  refine ⟨str_starts_with_iff, ?_, by decide, by decide, by decide, by decide⟩
  intro S P
  rw [str_starts_with_iff]
  simp

theorem line_list_nil (s : Nat) : line_list s [] = [] := by
  rw [line_list]

theorem line_list_cons_sep (s : Nat) (t : List Nat) : line_list s (s :: t) = line_list s t := by
  rw [line_list]; simp

theorem line_list_cons_ne (s b : Nat) (t : List Nat) (hb : b ≠ s) :
    line_list s (b :: t)
      = (b :: t.takeWhile (· ≠ s)) :: line_list s (t.dropWhile (· ≠ s)) := by
  rw [line_list]; simp [hb]

theorem runs_bytes (s : Nat) :
    ∀ (k : Nat) (l pre : List Nat), l.length ≤ k →
      (runs s pre.length l).map (span_bytes (pre ++ l)) = line_list s l := by
  intro k
  induction k with
  | zero =>
    intro l pre hk
    have hl : l = [] := List.length_eq_zero.1 (by omega)
    subst hl
    rw [runs_nil, line_list_nil]; rfl
  | succ k ih =>
    intro l pre hk
    cases l with
    | nil => rw [runs_nil, line_list_nil]; rfl
    | cons b t =>
      by_cases hb : b = s
      · subst hb
        have e : pre ++ b :: t = (pre ++ [b]) ++ t := by simp
        have hi := ih t (pre ++ [b]) (by simp at hk; omega)
        rw [List.length_append, List.length_singleton, ← e] at hi
        rw [runs_cons_sep, line_list_cons_sep, hi]
      · have hsplit : t = t.takeWhile (· ≠ s) ++ t.dropWhile (· ≠ s) :=
          (List.takeWhile_append_dropWhile _ t).symm
        have e : pre ++ b :: t = pre ++ (b :: t.takeWhile (· ≠ s)) ++ t.dropWhile (· ≠ s) := by
          conv_lhs => rw [hsplit]
          simp
        have hds := (List.dropWhile_sublist (l := t) (fun x => decide (x ≠ s))).length_le
        have hi := ih (t.dropWhile (· ≠ s)) (pre ++ (b :: t.takeWhile (· ≠ s)))
          (by simp at hk; omega)
        rw [← e] at hi
        have el : (pre ++ (b :: t.takeWhile (· ≠ s))).length
            = pre.length + 1 + (t.takeWhile (· ≠ s)).length := by
          rw [List.length_append, List.length_cons]; omega
        rw [el] at hi
        rw [runs_cons_ne s _ b t hb, line_list_cons_ne s b t hb, List.map_cons, hi]
        congr 1
        have hm := span_bytes_mid pre (b :: t.takeWhile (· ≠ s)) (t.dropWhile (· ≠ s))
        rw [← e, List.length_cons] at hm
        exact hm

theorem runs_whole_bytes (s : Nat) (B : List Nat) :
    (runs s 0 B).map (span_bytes B) = line_list s B := by
  have h := runs_bytes s B.length B [] (le_refl _)
  simpa using h

theorem takeWhile_ne_append_sep (s : Nat) (X Z : List Nat) (hX : s ∉ X) :
    (X ++ s :: Z).takeWhile (· ≠ s) = X ∧ (X ++ s :: Z).dropWhile (· ≠ s) = s :: Z := by
  induction X with
  | nil => simp [List.takeWhile_cons, List.dropWhile_cons]
  | cons a X ih =>
    have ha : a ≠ s := fun e => hX (e ▸ List.mem_cons_self _ _)
    have hX2 : s ∉ X := fun h => hX (List.mem_cons_of_mem _ h)
    obtain ⟨h1, h2⟩ := ih hX2
    constructor
    · rw [List.cons_append, List.takeWhile_cons]
      simp only [ha, ne_eq, not_false_eq_true, decide_True, if_true]
      rw [h1]
    · rw [List.cons_append, List.dropWhile_cons]
      simp only [ha, ne_eq, not_false_eq_true, decide_True, if_true]
      rw [h2]

theorem takeWhile_ne_self (s : Nat) (X : List Nat) (hX : s ∉ X) :
    X.takeWhile (· ≠ s) = X ∧ X.dropWhile (· ≠ s) = [] := by
  constructor
  · rw [List.takeWhile_eq_self_iff]
    intro x hx
    have : x ≠ s := fun e => hX (e ▸ hx)
    simpa using this
  · rw [List.dropWhile_eq_nil_iff]
    intro x hx
    have : x ≠ s := fun e => hX (e ▸ hx)
    simpa using this

theorem line_list_single (s : Nat) (X : List Nat) (hX : s ∉ X) (hne : X ≠ []) :
    line_list s X = [X] := by
  cases X with
  | nil => exact absurd rfl hne
  | cons b t =>
    have hb : b ≠ s := fun e => hX (e ▸ List.mem_cons_self _ _)
    have ht : s ∉ t := fun h => hX (List.mem_cons_of_mem _ h)
    obtain ⟨h1, h2⟩ := takeWhile_ne_self s t ht
    rw [line_list_cons_ne s b t hb, h1, h2, line_list_nil]

theorem line_list_line_sep (s : Nat) (X Z : List Nat) (hX : s ∉ X) (hne : X ≠ []) :
    line_list s (X ++ s :: Z) = X :: line_list s Z := by
  cases X with
  | nil => exact absurd rfl hne
  | cons b t =>
    have hb : b ≠ s := fun e => hX (e ▸ List.mem_cons_self _ _)
    have ht : s ∉ t := fun h => hX (List.mem_cons_of_mem _ h)
    obtain ⟨h1, h2⟩ := takeWhile_ne_append_sep s t Z ht
    rw [List.cons_append, line_list_cons_ne s b _ hb, h1, h2, line_list_cons_sep]

theorem line_list_intercalate (s : Nat) (Xs : List (List Nat)) (hXs : ∀ X ∈ Xs, s ∉ X) :
    line_list s (List.intercalate [s] Xs) = Xs.filter (· ≠ []) := by
  induction Xs with
  | nil => simp [List.intercalate, line_list_nil]
  | cons X Ys ih =>
    have hX : s ∉ X := hXs X (List.mem_cons_self _ _)
    have hYs : ∀ Y ∈ Ys, s ∉ Y := fun Y hY => hXs Y (List.mem_cons_of_mem _ hY)
    cases Ys with
    | nil =>
      by_cases hne : X = []
      · subst hne; simp [List.intercalate, line_list_nil]
      · have : List.intercalate [s] [X] = X := by simp [List.intercalate]
        rw [this, line_list_single s X hX hne]
        simp [hne]
    | cons Y Ys =>
      have e : List.intercalate [s] (X :: Y :: Ys) = X ++ s :: List.intercalate [s] (Y :: Ys) := by
        simp [List.intercalate]
      rw [e]
      by_cases hne : X = []
      · subst hne
        rw [List.nil_append, line_list_cons_sep, ih hYs]
        simp
      · rw [line_list_line_sep s X _ hX hne, ih hYs]
        simp [hne]

theorem line_list_append_sep (s : Nat) :
    ∀ (k : Nat) (P C : List Nat), P.length ≤ k →
      line_list s (P ++ s :: C) = line_list s P ++ line_list s C := by
  intro k
  induction k with
  | zero =>
    intro P C hk
    have hl : P = [] := List.length_eq_zero.1 (by omega)
    subst hl
    rw [List.nil_append, line_list_cons_sep, line_list_nil, List.nil_append]
  | succ k ih =>
    intro P C hk
    cases P with
    | nil => rw [List.nil_append, line_list_cons_sep, line_list_nil, List.nil_append]
    | cons b t =>
      by_cases hb : b = s
      · subst hb
        rw [List.cons_append, line_list_cons_sep, line_list_cons_sep]
        exact ih t C (by simp at hk; omega)
      · have hsplit : t = t.takeWhile (· ≠ s) ++ t.dropWhile (· ≠ s) :=
          (List.takeWhile_append_dropWhile _ t).symm
        have htw : s ∉ t.takeWhile (· ≠ s) := by
          intro hmem
          have := List.mem_takeWhile_imp hmem
          simp at this
        have hds := (List.dropWhile_sublist (l := t) (fun x => decide (x ≠ s))).length_le
        have hi := ih (t.dropWhile (· ≠ s)) C (by simp at hk; omega)
        rw [List.cons_append, line_list_cons_ne s b _ hb, line_list_cons_ne s b t hb,
          List.cons_append, ← hi]
        -- the bytes after the first line of `t ++ s :: C`
        cases hdw : t.dropWhile (· ≠ s) with
        | nil =>
          have ht : t = t.takeWhile (· ≠ s) := by
            conv_lhs => rw [hsplit, hdw, List.append_nil]
          obtain ⟨h1, h2⟩ := takeWhile_ne_append_sep s (t.takeWhile (· ≠ s)) C htw
          rw [← ht] at h1 h2
          rw [h1, h2, List.nil_append, ← ht]
        | cons d dw =>
          have hd : d = s := by
            have := List.head_dropWhile_not (fun x => decide (x ≠ s)) t (by rw [hdw]; simp)
            simp only [hdw, List.head_cons] at this
            simpa using this
          subst hd
          have ht : t ++ d :: C = t.takeWhile (· ≠ d) ++ d :: (dw ++ d :: C) := by
            conv_lhs => rw [hsplit, hdw]
            simp
          obtain ⟨h1, h2⟩ := takeWhile_ne_append_sep d (t.takeWhile (· ≠ d)) (dw ++ d :: C) htw
          rw [ht, h1, h2, List.cons_append]

theorem runs_eq_nil_iff (s : Nat) (l : List Nat) :
    ∀ off, runs s off l = [] ↔ ∀ b ∈ l, b = s := by
  induction l with
  | nil => intro off; simp [runs_nil]
  | cons a t ih =>
    intro off
    by_cases ha : a = s
    · subst ha
      rw [runs_cons_sep, ih]
      simp
    · rw [runs_cons_ne s off a t ha]
      simp [ha]

theorem first_line_eq_nil_iff_all (s : Nat) (l : List Nat) :
    first_line s l = [] ↔ ∀ b ∈ l, b = s := by
  rw [first_line_eq_nil_iff, List.dropWhile_eq_nil_iff]
  simp

theorem get_first_split_whole (B : List Nat) (s : Nat) :
    get_first_split B (whole B) s
      = some (if first_line s B = [] then { data := none, count := 0 }
              else { data := some ((B.takeWhile (· = s)).length),
                     count := (first_line s B).length }) := by
  have h := get_first_split_suffix s B []
  simpa [whole] using h

/-- C5: for every buffer `B` (of a length a `size_t` holds) and separator `s`, the `split_by`
loop visits no line exactly when every byte of `B` is `s`, and `get_first_split` on `B` returns
the null-data span exactly in that case; so an empty buffer and a buffer of separators only
both give zero lines. -/
theorem split_by_no_lines_iff (B : List Nat) (s fuel : Nat)
    (hB : B.length < 2 ^ 64) (hf : B.length < fuel) :
    (∃ L, split_by_spans B (whole B) s fuel = some L ∧ (L = [] ↔ ∀ b ∈ B, b = s)) ∧
    (∃ r, get_first_split B (whole B) s = some r ∧ (r.data = none ↔ ∀ b ∈ B, b = s)) ∧
    (B = [] → split_by_spans B (whole B) s fuel = some []) ∧
    ((∀ b ∈ B, b = s) → split_by_spans B (whole B) s fuel = some []) := by
  have hrun := split_by_spans_whole B s fuel hB hf
  have hiff := runs_eq_nil_iff s B 0
  refine ⟨⟨_, hrun, hiff⟩, ?_, ?_, ?_⟩
  · refine ⟨_, get_first_split_whole B s, ?_⟩
    rw [← first_line_eq_nil_iff_all]
    by_cases h : first_line s B = []
    · simp [h]
    · simp [h]
  · intro hnil
    rw [hrun, hiff.2 (by intro b hb; rw [hnil] at hb; simp at hb)]
  · intro hall
    rw [hrun, hiff.2 hall]

/-- Witness of C5 on the buffer `[0, 0, 0]` of separators only. -/
theorem split_by_no_lines_iff_witness :
    [0, 0, 0].length < 2 ^ 64 ∧ [0, 0, 0].length < 4 ∧
    ((∃ L, split_by_spans [0, 0, 0] (whole [0, 0, 0]) 0 4 = some L
        ∧ (L = [] ↔ ∀ b ∈ [0, 0, 0], b = 0)) ∧
    (∃ r, get_first_split [0, 0, 0] (whole [0, 0, 0]) 0 = some r
        ∧ (r.data = none ↔ ∀ b ∈ [0, 0, 0], b = 0)) ∧
    ([0, 0, 0] = [] → split_by_spans [0, 0, 0] (whole [0, 0, 0]) 0 4 = some []) ∧
    ((∀ b ∈ [0, 0, 0], b = 0) → split_by_spans [0, 0, 0] (whole [0, 0, 0]) 0 4 = some [])) :=
  ⟨by decide, by decide, split_by_no_lines_iff [0, 0, 0] 0 4 (by decide) (by decide)⟩

theorem getLast?_of_pairwise (R : byte_span_t → byte_span_t → Prop) (L : List byte_span_t)
    (x : byte_span_t) (hP : L.Pairwise R) (hx : x ∈ L) (hR : ∀ y ∈ L, ¬ R x y) :
    L.getLast? = some x := by
  obtain ⟨l1, l2, e⟩ := List.append_of_mem hx
  subst e
  cases l2 with
  | nil => simp
  | cons y l2 =>
    exfalso
    have h1 := (List.pairwise_append.1 hP).2.1
    have h2 := (List.pairwise_cons.1 h1).1 y (List.mem_cons_self _ _)
    exact hR y (by simp) h2

theorem final_line_is_maximal_run (P L : List Nat) (s : Nat) (hL : L ≠ [])
    (hs : s ∉ L) (hP : P = [] ∨ ∃ P', P = P' ++ [s]) :
    is_maximal_run (P ++ L) s P.length L.length := by
  refine ⟨List.length_pos.2 hL, by simp, ?_, ?_, Or.inl (by simp)⟩
  · intro i _ hc
    rw [List.getElem?_append_right (by omega)] at hc
    have : P.length + i - P.length = i := by omega
    rw [this] at hc
    exact hs (List.mem_iff_getElem?.2 ⟨i, hc⟩)
  · rcases hP with h | ⟨P', h⟩
    · left; rw [h]; rfl
    · right
      subst h
      rw [List.append_assoc]
      have : (P' ++ [s]).length - 1 = P'.length := by simp
      rw [this, List.getElem?_append_right (le_refl _)]
      simp

theorem runs_single (s off : Nat) (X : List Nat) (hX : s ∉ X) (hne : X ≠ []) :
    runs s off X = [⟨some off, X.length⟩] := by
  cases X with
  | nil => exact absurd rfl hne
  | cons b t =>
    have hb : b ≠ s := fun e => hX (e ▸ List.mem_cons_self _ _)
    have ht : s ∉ t := fun h => hX (List.mem_cons_of_mem _ h)
    obtain ⟨h1, h2⟩ := takeWhile_ne_self s t ht
    rw [runs_cons_ne s off b t hb, h1, h2, runs_nil, List.length_cons]

theorem get_first_split_at_end (B : List Nat) (s : Nat) :
    get_first_split B ⟨some B.length, 0⟩ s = some ⟨none, 0⟩ := by
  have h := get_first_split_inbounds B B.length 0 s (by omega)
  simpa [first_line] using h

/-- C6: let `B = P ++ L` (of a length a `size_t` holds) where `L` is non-empty and holds no
separator and `P` is empty or ends with the separator. Then the `split_by` loop over `B` ends,
the last span it visits is `L` at offset `P.length`, ending at the last byte of `B`, and
`get_next_split` from that span gives the null-data span that stops the loop. When `P` is
empty (no separator in the buffer at all) the whole buffer is the only line. -/
theorem final_line_without_separator (P L : List Nat) (s fuel : Nat) (hL : L ≠ [])
    (hs : s ∉ L) (hP : P = [] ∨ ∃ P', P = P' ++ [s])
    (hB : (P ++ L).length < 2 ^ 64) (hf : (P ++ L).length < fuel) :
    ∃ Ls, split_by_spans (P ++ L) (whole (P ++ L)) s fuel = some Ls ∧
      Ls.getLast? = some ⟨some P.length, L.length⟩ ∧
      span_bytes (P ++ L) ⟨some P.length, L.length⟩ = L ∧
      P.length + L.length = (P ++ L).length ∧
      get_next_split (P ++ L) ⟨some P.length, L.length⟩ (whole (P ++ L)) s = some ⟨none, 0⟩ ∧
      (P = [] → Ls = [⟨some 0, L.length⟩]) := by
  obtain ⟨hA, hC, hPair⟩ := runs_whole_spec (P ++ L) s
  have hrun := final_line_is_maximal_run P L s hL hs hP
  refine ⟨_, split_by_spans_whole (P ++ L) s fuel hB hf, ?_, ?_, by simp, ?_, ?_⟩
  · refine getLast?_of_pairwise ends_before _ _ hPair (hC _ _ hrun) ?_
    intro y hy hc
    obtain ⟨o, n, e, hr⟩ := hA y hy
    subst e
    have h1 := hr.1
    have h2 := hr.2.1
    simp only [ends_before, List.length_append] at hc h2
    omega
  · have := span_bytes_mid P L []
    rwa [List.append_nil] at this
  · rw [get_next_split_whole (P ++ L) P.length L.length s (by simp) hB]
    have e : P.length + L.length = (P ++ L).length := by simp
    rw [e, Nat.sub_self]
    exact get_first_split_at_end (P ++ L) s
  · intro hnil
    subst hnil
    rw [List.nil_append]
    exact runs_single s 0 L hs hL

/-- Witness of C6 on `P = [1, 0]`, `L = [2, 3]` and separator `0`. -/
theorem final_line_without_separator_witness :
    ∃ Ls, split_by_spans ([1, 0] ++ [2, 3]) (whole ([1, 0] ++ [2, 3])) 0 5 = some Ls ∧
      Ls.getLast? = some ⟨some [1, 0].length, [2, 3].length⟩ ∧
      span_bytes ([1, 0] ++ [2, 3]) ⟨some [1, 0].length, [2, 3].length⟩ = [2, 3] ∧
      [1, 0].length + [2, 3].length = ([1, 0] ++ [2, 3]).length ∧
      get_next_split ([1, 0] ++ [2, 3]) ⟨some [1, 0].length, [2, 3].length⟩
        (whole ([1, 0] ++ [2, 3])) 0 = some ⟨none, 0⟩ ∧
      ([1, 0] = [] → Ls = [⟨some 0, [2, 3].length⟩]) :=
  final_line_without_separator [1, 0] [2, 3] 0 5 (by decide) (by decide)
    (Or.inr ⟨[1], rfl⟩) (by decide) (by decide)

theorem intercalate_one (sep x : List Nat) : List.intercalate sep [x] = x := by
  simp [List.intercalate]

theorem intercalate_two (sep x y : List Nat) (zs : List (List Nat)) :
    List.intercalate sep (x :: y :: zs) = x ++ sep ++ List.intercalate sep (y :: zs) := by
  simp [List.intercalate]

theorem intercalate_cons_cons (sep : List Nat) (a : Nat) (x : List Nat) (zs : List (List Nat)) :
    List.intercalate sep ((a :: x) :: zs) = a :: List.intercalate sep (x :: zs) := by
  cases zs with
  | nil => rw [intercalate_one, intercalate_one]
  | cons y zs => rw [intercalate_two, intercalate_two]; rfl

theorem line_list_eq_nil_iff (s : Nat) (l : List Nat) :
    line_list s l = [] ↔ ∀ b ∈ l, b = s := by
  induction l with
  | nil => simp [line_list_nil]
  | cons a t ih =>
    by_cases ha : a = s
    · subst ha
      rw [line_list_cons_sep, ih]
      simp
    · rw [line_list_cons_ne s a t ha]
      simp [ha]

theorem line_list_cons_cons_ne (s a b : Nat) (t : List Nat) (ha : a ≠ s) (hb : b ≠ s) :
    line_list s (a :: b :: t)
      = (a :: b :: t.takeWhile (· ≠ s)) :: line_list s (t.dropWhile (· ≠ s)) := by
  rw [line_list_cons_ne s a _ ha]
  simp [List.takeWhile_cons, List.dropWhile_cons, hb]

theorem line_list_cons_ne_sep (s a : Nat) (t : List Nat) (ha : a ≠ s) :
    line_list s (a :: s :: t) = [a] :: line_list s (s :: t) := by
  rw [line_list_cons_ne s a _ ha]
  simp [List.takeWhile_cons, List.dropWhile_cons]

theorem line_list_one (s a : Nat) (ha : a ≠ s) : line_list s [a] = [[a]] := by
  rw [line_list_cons_ne s a _ ha]
  simp [line_list_nil]

theorem line_list_flatten (s : Nat) (l : List Nat) :
    (line_list s l).flatten = l.filter (· ≠ s) := by
  induction l with
  | nil => simp [line_list_nil]
  | cons a t ih =>
    by_cases ha : a = s
    · subst ha
      rw [line_list_cons_sep, ih]
      simp
    · have hf : (a :: t).filter (· ≠ s) = a :: t.filter (· ≠ s) := by simp [ha]
      rw [hf, ← ih]
      cases t with
      | nil => rw [line_list_one s a ha, line_list_nil]; rfl
      | cons b t =>
        by_cases hb : b = s
        · subst hb
          rw [line_list_cons_ne_sep _ a t ha]; rfl
        · rw [line_list_cons_cons_ne s a b t ha hb, line_list_cons_ne s b t hb]; rfl

theorem line_list_dropWhile (s : Nat) (l : List Nat) :
    line_list s (l.dropWhile (· = s)) = line_list s l := by
  induction l with
  | nil => rfl
  | cons a t ih =>
    by_cases ha : a = s
    · subst ha
      rw [line_list_cons_sep, ← ih]
      simp [List.dropWhile_cons]
    · simp [List.dropWhile_cons, ha]

theorem rdropWhile_cons_keep (s a : Nat) (l : List Nat) (h : ¬ (a = s ∧ ∀ x ∈ l, x = s)) :
    (a :: l).rdropWhile (· = s) = a :: l.rdropWhile (· = s) := by
  induction l using List.reverseRecOn with
  | nil =>
    have ha : a ≠ s := fun e => h ⟨e, by simp⟩
    simp [List.rdropWhile_singleton, ha]
  | append_singleton l x ih =>
    rw [← List.cons_append]
    by_cases hx : x = s
    · rw [List.rdropWhile_concat_pos _ _ _ (by simpa using hx),
        List.rdropWhile_concat_pos _ _ _ (by simpa using hx)]
      apply ih
      intro hc
      apply h
      refine ⟨hc.1, ?_⟩
      intro y hy
      rcases List.mem_append.1 hy with hy | hy
      · exact hc.2 y hy
      · simp at hy; rw [hy]; exact hx
    · rw [List.rdropWhile_concat_neg _ _ _ (by simpa using hx),
        List.rdropWhile_concat_neg _ _ _ (by simpa using hx)]
      rfl

theorem collapse_runs_cons_ne (s a : Nat) (r : List Nat) (ha : a ≠ s) :
    collapse_runs s (a :: r) = a :: collapse_runs s r := by
  cases r with
  | nil => rfl
  | cons b t => simp [collapse_runs, ha]

theorem collapse_runs_sep_ne (s b : Nat) (r : List Nat) (hb : b ≠ s) :
    collapse_runs s (s :: b :: r) = s :: collapse_runs s (b :: r) := by
  simp [collapse_runs, hb]

theorem collapse_runs_sep_sep (s : Nat) (r : List Nat) :
    collapse_runs s (s :: s :: r) = collapse_runs s (s :: r) := by
  simp [collapse_runs]

theorem collapse_key (s : Nat) (l : List Nat) :
    (∀ t, l = s :: t → collapse_runs s (l.rdropWhile (· = s))
        = if line_list s l = [] then [] else s :: List.intercalate [s] (line_list s l)) ∧
    ((∀ t, l ≠ s :: t) → collapse_runs s (l.rdropWhile (· = s))
        = List.intercalate [s] (line_list s l)) := by
  induction l with
  | nil =>
    refine ⟨fun t e => List.noConfusion e, fun _ => ?_⟩
    rw [line_list_nil]; rfl
  | cons a t ih =>
    by_cases ha : a = s
    · subst ha
      refine ⟨fun _ _ => ?_, fun h => absurd rfl (h t)⟩
      by_cases hall : ∀ x ∈ t, x = a
      · have h1 : (a :: t).rdropWhile (· = a) = [] := by
          rw [List.rdropWhile_eq_nil_iff]
          intro x hx
          rcases List.mem_cons.1 hx with e | hx
          · simp [e]
          · simpa using hall x hx
        have h2 : line_list a (a :: t) = [] := by
          rw [line_list_eq_nil_iff]
          intro x hx
          rcases List.mem_cons.1 hx with e | hx
          · exact e
          · exact hall x hx
        rw [h1, h2]; rfl
      · have hne : line_list a (a :: t) ≠ [] := by
          rw [line_list_cons_sep]
          intro hc
          exact hall ((line_list_eq_nil_iff a t).1 hc)
        rw [if_neg hne, rdropWhile_cons_keep a a t (fun hc => hall hc.2), line_list_cons_sep]
        cases t with
        | nil => exact absurd (by simp) hall
        | cons b t' =>
          by_cases hb : b = a
          · subst hb
            have hall2 : ¬ ∀ x ∈ t', x = b := by
              intro hc
              apply hall
              intro x hx
              rcases List.mem_cons.1 hx with e | hx
              · exact e
              · exact hc x hx
            have hne2 : line_list b (b :: t') ≠ [] := by
              rw [line_list_cons_sep]
              intro hc
              exact hall2 ((line_list_eq_nil_iff b t').1 hc)
            have h3 := ih.1 t' rfl
            rw [if_neg hne2, rdropWhile_cons_keep b b t' (fun hc => hall2 hc.2)] at h3
            rw [rdropWhile_cons_keep b b t' (fun hc => hall2 hc.2), collapse_runs_sep_sep, h3]
          · have h3 := ih.2 (fun t2 e => hb (List.cons.inj e).1)
            rw [rdropWhile_cons_keep a b t' (fun hc => hb hc.1)] at h3
            rw [rdropWhile_cons_keep a b t' (fun hc => hb hc.1), collapse_runs_sep_ne a b _ hb, h3]
    · refine ⟨fun t2 e => absurd (List.cons.inj e).1 ha, fun _ => ?_⟩
      rw [rdropWhile_cons_keep s a t (fun hc => ha hc.1), collapse_runs_cons_ne s a _ ha]
      cases t with
      | nil =>
        rw [line_list_one s a ha, intercalate_one]; rfl
      | cons b t' =>
        by_cases hb : b = s
        · subst hb
          rw [ih.1 t' rfl, line_list_cons_ne_sep b a t' ha]
          cases hll : line_list b (b :: t') with
          | nil => rw [intercalate_one]; rfl
          | cons y zs =>
            rw [intercalate_two]
            simp
        · rw [ih.2 (fun t2 e => hb (List.cons.inj e).1), line_list_cons_cons_ne s a b t' ha hb,
            line_list_cons_ne s b t' hb]
          simp only [intercalate_cons_cons]

theorem intercalate_line_list (s : Nat) (B : List Nat) :
    List.intercalate [s] (line_list s B) = collapse_runs s (strip_separators s B) := by
  unfold strip_separators
  have hk := (collapse_key s (B.dropWhile (· = s))).2 (by
    intro t e
    have := List.head_dropWhile_not (fun x => decide (x = s)) B (by rw [e]; simp)
    simp only [e, List.head_cons] at this
    simp at this)
  rw [hk, line_list_dropWhile]

/-- C2: for every buffer `B` (of a length a `size_t` holds) and separator `s`, the `split_by`
loop ends with a list `L` of spans whose byte strings, joined with one `s` between consecutive
lines, are `B` with its leading and trailing runs of `s` removed and every run of `s` collapsed
to one `s`; joined with nothing between them they are `B` with every `s` deleted. -/
theorem split_by_lossless_modulo_separators (B : List Nat) (s fuel : Nat)
    (hB : B.length < 2 ^ 64) (hf : B.length < fuel) :
    ∃ L, split_by_spans B (whole B) s fuel = some L ∧
      List.intercalate [s] (L.map (span_bytes B)) = collapse_runs s (strip_separators s B) ∧
      (L.map (span_bytes B)).flatten = B.filter (· ≠ s) := by
  refine ⟨_, split_by_spans_whole B s fuel hB hf, ?_, ?_⟩
  · rw [runs_whole_bytes, intercalate_line_list]
  · rw [runs_whole_bytes, line_list_flatten]

/-- Witness of C2 on the buffer `[0, 0, 1, 2, 0, 0, 3, 0]` split at `0`. -/
theorem split_by_lossless_modulo_separators_witness :
    ∃ L, split_by_spans [0, 0, 1, 2, 0, 0, 3, 0] (whole [0, 0, 1, 2, 0, 0, 3, 0]) 0 9 = some L ∧
      List.intercalate [0] (L.map (span_bytes [0, 0, 1, 2, 0, 0, 3, 0]))
        = collapse_runs 0 (strip_separators 0 [0, 0, 1, 2, 0, 0, 3, 0]) ∧
      (L.map (span_bytes [0, 0, 1, 2, 0, 0, 3, 0])).flatten
        = [0, 0, 1, 2, 0, 0, 3, 0].filter (· ≠ 0) :=
  split_by_lossless_modulo_separators [0, 0, 1, 2, 0, 0, 3, 0] 0 9 (by decide) (by decide)

theorem starts_with_line (B : List Nat) (o n : Nat) (lit : String) (h : o + n ≤ B.length) :
    str_starts_with ⟨B.drop o, n⟩ (cstr lit) = true
      ↔ literal_bytes lit <+: (B.drop o).take n := by
  rw [str_starts_with_iff]
  have hlen : (cstr lit).len = (literal_bytes lit).length := by simp [cstr]
  have hbytes : (cstr lit).bytes.take (cstr lit).len = literal_bytes lit := by
    rw [hlen]; simp [cstr]
  rw [hbytes, hlen]
  simp only []
  have hn : ((B.drop o).take n).length = n := by
    rw [List.length_take, List.length_drop]; omega
  constructor
  · rintro ⟨h1, h2⟩
    rw [List.prefix_iff_eq_take, List.take_take, Nat.min_eq_left h1]
    exact h2.symm
  · intro hp
    have h1 : (literal_bytes lit).length ≤ n := by
      have := hp.length_le
      omega
    refine ⟨h1, ?_⟩
    have := List.prefix_iff_eq_take.1 hp
    rw [List.take_take, Nat.min_eq_left h1] at this
    exact this.symm

theorem size_add_one (c : Nat) (h : c + 1 < 2 ^ 64) : size_add c 1 = c + 1 := by
  unfold size_add SIZE_T_MOD
  exact Nat.mod_eq_of_lt h

theorem scan_line_spec (B : List Nat) (o n c : Nat) (ph : spec_state) (h : o + n ≤ B.length)
    (hc : c + 1 < 2 ^ 64) :
    scan_line B (phase_of ph, c) ⟨some o, n⟩
      = some (phase_of (spec_step (ph, c) (span_bytes B ⟨some o, n⟩)).1,
              (spec_step (ph, c) (span_bytes B ⟨some o, n⟩)).2) := by
  have hj := starts_with_line B o n "Content-Type: image/jpeg" h
  have hb := starts_with_line B o n "Content-Transfer-Encoding: base64" h
  have hv : span_bytes B ⟨some o, n⟩ = (B.drop o).take n := rfl
  rw [hv]
  cases ph with
  | LOOK_FOR_JPEG_HEADER =>
    simp only [scan_line, span_chars, phase_of, spec_step, CONTENT_TYPE_JPEG_LINE, JPEG_HEADER]
    by_cases hp : literal_bytes "Content-Type: image/jpeg" <+: (B.drop o).take n
    · rw [if_pos (hj.2 hp), if_pos hp]
    · have : ¬ str_starts_with ⟨B.drop o, n⟩ (cstr "Content-Type: image/jpeg") = true :=
        fun e => hp (hj.1 e)
      rw [if_neg this, if_neg hp]
  | CHECK_BASE64_HEADER =>
    simp only [scan_line, span_chars, phase_of, spec_step, BASE_64_ENCODING_HEADER_LINE,
      BASE64_HEADER]
    by_cases hp : literal_bytes "Content-Transfer-Encoding: base64" <+: (B.drop o).take n
    · rw [if_pos (hb.2 hp), if_pos hp, size_add_one c hc]
    · have : ¬ str_starts_with ⟨B.drop o, n⟩ (cstr "Content-Transfer-Encoding: base64") = true :=
        fun e => hp (hb.1 e)
      rw [if_neg this, if_neg hp]

theorem spec_step_count_le (st : spec_state × Nat) (line : List Nat) :
    (spec_step st line).2 ≤ st.2 + 1 := by
  unfold spec_step
  split <;> split <;> simp

theorem foldlM_scan_line (B : List Nat) :
    ∀ (Ls : List byte_span_t) (ph : spec_state) (c : Nat),
      (∀ sp ∈ Ls, ∃ o n, sp = ⟨some o, n⟩ ∧ o + n ≤ B.length) →
      c + Ls.length < 2 ^ 64 →
      List.foldlM (scan_line B) (phase_of ph, c) Ls
        = some (phase_of ((Ls.map (span_bytes B)).foldl spec_step (ph, c)).1,
                ((Ls.map (span_bytes B)).foldl spec_step (ph, c)).2) := by
  intro Ls
  induction Ls with
  | nil => intro ph c _ _; rfl
  | cons sp Ls ih =>
    intro ph c hin hc
    obtain ⟨o, n, e, hon⟩ := hin sp (List.mem_cons_self _ _)
    subst e
    rw [List.length_cons] at hc
    rw [List.foldlM_cons, scan_line_spec B o n c ph hon (by omega)]
    have hle := spec_step_count_le (ph, c) (span_bytes B ⟨some o, n⟩)
    simp only [] at hle
    have := ih (spec_step (ph, c) (span_bytes B ⟨some o, n⟩)).1
      (spec_step (ph, c) (span_bytes B ⟨some o, n⟩)).2
      (fun sp hsp => hin sp (List.mem_cons_of_mem _ hsp)) (by omega)
    simpa using this

theorem runs_length_le (s : Nat) :
    ∀ (k : Nat) (l : List Nat) (off : Nat), l.length ≤ k → (runs s off l).length ≤ l.length := by
  intro k
  induction k with
  | zero =>
    intro l off hk
    have hl : l = [] := List.length_eq_zero.1 (by omega)
    subst hl
    rw [runs_nil]; simp
  | succ k ih =>
    intro l off hk
    cases l with
    | nil => rw [runs_nil]; simp
    | cons b t =>
      by_cases hb : b = s
      · subst hb
        rw [runs_cons_sep]
        have := ih t (off + 1) (by simp at hk; omega)
        simp only [List.length_cons]; omega
      · have hds := (List.dropWhile_sublist (l := t) (fun x => decide (x ≠ s))).length_le
        rw [runs_cons_ne s off b t hb]
        have := ih (t.dropWhile (· ≠ s)) (off + 1 + (t.takeWhile (· ≠ s)).length)
          (by simp at hk; omega)
        simp only [List.length_cons]; omega

theorem count_base64_jpgs_fuel_eq (B : List Nat) (fuel : Nat) (hB : B.length < 2 ^ 64)
    (hf : B.length < fuel) :
    count_base64_jpgs_fuel fuel B (whole B) = some (spec_count (line_list 10 B)) := by
  unfold count_base64_jpgs_fuel
  rw [split_by_whole (scan_line B) B 10 fuel _ hB hf]
  have hin : ∀ sp ∈ runs 10 0 B, ∃ o n, sp = ⟨some o, n⟩ ∧ o + n ≤ B.length := by
    intro sp hsp
    obtain ⟨o, n, e, hr⟩ := (runs_whole_spec B 10).1 sp hsp
    exact ⟨o, n, e, hr.2.1⟩
  have hlen := runs_length_le 10 B.length B 0 (le_refl _)
  have hfold := foldlM_scan_line B (runs 10 0 B) LOOK_FOR_JPEG_HEADER 0 hin (by omega)
  rw [runs_whole_bytes] at hfold
  have e : (SCAN_PHASE_LOOK_FOR_JPEG, 0) = (phase_of LOOK_FOR_JPEG_HEADER, 0) := rfl
  rw [e, hfold]
  rfl

theorem splitOn_cons_sep (s : Nat) (t : List Nat) :
    (s :: t).splitOn s = [] :: t.splitOn s := by
  simp [List.splitOn, List.splitOnP_cons]

theorem splitOn_cons_ne (s a : Nat) (t : List Nat) (ha : a ≠ s) :
    (a :: t).splitOn s = (t.splitOn s).modifyHead (List.cons a) := by
  simp [List.splitOn, List.splitOnP_cons, ha]

theorem line_list_eq_splitOn (s : Nat) (l : List Nat) :
    line_list s l = (l.splitOn s).filter (· ≠ []) := by
  induction l with
  | nil => rw [line_list_nil, List.splitOn_nil]; rfl
  | cons a t ih =>
    by_cases ha : a = s
    · subst ha
      rw [line_list_cons_sep, splitOn_cons_sep, ih]
      simp
    · rw [splitOn_cons_ne s a t ha]
      cases t with
      | nil =>
        rw [line_list_one s a ha, List.splitOn_nil]
        simp
      | cons b t' =>
        by_cases hb : b = s
        · subst hb
          rw [line_list_cons_ne_sep b a t' ha, ih, splitOn_cons_sep]
          simp
        · rw [line_list_cons_cons_ne s a b t' ha hb]
          rw [line_list_cons_ne s b t' hb, splitOn_cons_ne s b t' hb] at ih
          rw [splitOn_cons_ne s b t' hb]
          cases hsp : t'.splitOn s with
          | nil => exact absurd hsp (List.splitOnP_ne_nil _ _)
          | cons X R =>
            rw [hsp] at ih
            simp only [List.modifyHead_cons] at ih ⊢
            have hf : List.filter (fun x => decide (x ≠ [])) ((b :: X) :: R)
                = (b :: X) :: List.filter (fun x => decide (x ≠ [])) R := by
              simp [List.filter_cons]
            have hf2 : List.filter (fun x => decide (x ≠ [])) ((a :: b :: X) :: R)
                = (a :: b :: X) :: List.filter (fun x => decide (x ≠ [])) R := by
              simp [List.filter_cons]
            rw [hf] at ih
            rw [hf2]
            obtain ⟨h1, h2⟩ := List.cons.inj ih
            rw [(List.cons.inj h1).2, h2]

theorem count_base64_jpgs_eq (B : List Nat) (hB : B.length < 2 ^ 64) :
    count_base64_jpgs B = some (spec_count (line_list 10 B)) :=
  count_base64_jpgs_fuel_eq B (B.length + 2) hB (by omega)

/-- C8: for every buffer `B` (of a length a `size_t` holds), the `split_by` loop of
`count_base64_jpgs` ends with the list `L` of the lines of `B`, whose byte strings are the
non-empty pieces of `B` split at `'\n'`, and the count returned is the count of the transition
table folded over those lines from `LOOK_FOR_JPEG_HEADER` and 0; any fuel beyond the length of
`B` gives the same count. -/
theorem count_base64_jpgs_is_table_fold (B : List Nat) (hB : B.length < 2 ^ 64) :
    ∃ L, split_by_spans B (whole B) 10 (B.length + 2) = some L ∧
      L.map (span_bytes B) = (B.splitOn 10).filter (· ≠ []) ∧
      count_base64_jpgs B = some (spec_count (L.map (span_bytes B))) ∧
      ∀ fuel, B.length < fuel →
        count_base64_jpgs_fuel fuel B (whole B) = some (spec_count (L.map (span_bytes B))) := by
  refine ⟨_, split_by_spans_whole B 10 (B.length + 2) hB (by omega), ?_, ?_, ?_⟩
  · rw [runs_whole_bytes, line_list_eq_splitOn]
  · rw [runs_whole_bytes]; exact count_base64_jpgs_eq B hB
  · intro fuel hf
    rw [runs_whole_bytes]; exact count_base64_jpgs_fuel_eq B fuel hB hf

/-- Witness of C8 on the buffer of the three lines JPEG header, `X`, base64 header. -/
theorem count_base64_jpgs_is_table_fold_witness :
    ∃ L, split_by_spans (List.intercalate [10] [JPEG_HEADER, [88], BASE64_HEADER])
        (whole (List.intercalate [10] [JPEG_HEADER, [88], BASE64_HEADER])) 10
        ((List.intercalate [10] [JPEG_HEADER, [88], BASE64_HEADER]).length + 2) = some L ∧
      L.map (span_bytes (List.intercalate [10] [JPEG_HEADER, [88], BASE64_HEADER]))
        = ((List.intercalate [10] [JPEG_HEADER, [88], BASE64_HEADER]).splitOn 10).filter
            (· ≠ []) ∧
      count_base64_jpgs (List.intercalate [10] [JPEG_HEADER, [88], BASE64_HEADER])
        = some (spec_count
            (L.map (span_bytes (List.intercalate [10] [JPEG_HEADER, [88], BASE64_HEADER])))) ∧
      ∀ fuel, (List.intercalate [10] [JPEG_HEADER, [88], BASE64_HEADER]).length < fuel →
        count_base64_jpgs_fuel fuel (List.intercalate [10] [JPEG_HEADER, [88], BASE64_HEADER])
            (whole (List.intercalate [10] [JPEG_HEADER, [88], BASE64_HEADER]))
          = some (spec_count
              (L.map (span_bytes (List.intercalate [10] [JPEG_HEADER, [88], BASE64_HEADER])))) :=
  count_base64_jpgs_is_table_fold (List.intercalate [10] [JPEG_HEADER, [88], BASE64_HEADER])
    (by decide)

theorem foldl_check_stays (Ls : List (List Nat)) (c : Nat)
    (h : ∀ X ∈ Ls, ¬ BASE64_HEADER <+: X) :
    Ls.foldl spec_step (CHECK_BASE64_HEADER, c) = (CHECK_BASE64_HEADER, c) := by
  induction Ls with
  | nil => rfl
  | cons X Ls ih =>
    have hX := h X (List.mem_cons_self _ _)
    rw [List.foldl_cons]
    have : spec_step (CHECK_BASE64_HEADER, c) X = (CHECK_BASE64_HEADER, c) := by
      simp [spec_step, hX]
    rw [this]
    exact ih (fun Y hY => h Y (List.mem_cons_of_mem _ hY))

theorem foldl_no_base64_count (Ls : List (List Nat)) (h : ∀ X ∈ Ls, ¬ BASE64_HEADER <+: X) :
    ∀ st, (Ls.foldl spec_step st).2 = st.2 := by
  induction Ls with
  | nil => intro st; rfl
  | cons X Ls ih =>
    intro st
    have hX := h X (List.mem_cons_self _ _)
    rw [List.foldl_cons, ih (fun Y hY => h Y (List.mem_cons_of_mem _ hY))]
    unfold spec_step
    split
    · split <;> rfl
    · simp [hX]

theorem sep_not_in_headers : 10 ∉ JPEG_HEADER ∧ 10 ∉ BASE64_HEADER ∧ JPEG_HEADER ≠ []
    ∧ BASE64_HEADER ≠ [] := by decide

/-- C9: for every sequence `Xs` of lines that hold no `'\n'` and do not start with the base64
header, the buffer made of the JPEG header line, the lines `Xs` and the base64 header line,
joined by `'\n'` (and of a length a `size_t` holds), is counted as exactly one image. -/
theorem marker_lines_need_not_be_adjacent (Xs : List (List Nat))
    (hXs : ∀ X ∈ Xs, 10 ∉ X ∧ ¬ BASE64_HEADER <+: X)
    (hlen : (List.intercalate [10] ([JPEG_HEADER] ++ Xs ++ [BASE64_HEADER])).length < 2 ^ 64) :
    count_base64_jpgs (List.intercalate [10] ([JPEG_HEADER] ++ Xs ++ [BASE64_HEADER]))
      = some 1 := by
  obtain ⟨hj, hb, hjne, hbne⟩ := sep_not_in_headers
  rw [count_base64_jpgs_eq _ hlen, line_list_intercalate]
  · have hf : ([JPEG_HEADER] ++ Xs ++ [BASE64_HEADER]).filter (· ≠ [])
        = JPEG_HEADER :: (Xs.filter (· ≠ []) ++ [BASE64_HEADER]) := by
      simp [List.filter_cons, hjne, hbne]
    rw [hf]
    unfold spec_count
    rw [List.foldl_cons]
    have h1 : spec_step (LOOK_FOR_JPEG_HEADER, 0) JPEG_HEADER = (CHECK_BASE64_HEADER, 0) := by
      decide
    rw [h1, List.foldl_append, foldl_check_stays]
    · decide
    · intro X hX
      exact (hXs X (List.mem_filter.1 hX).1).2
  · intro X hX
    simp only [List.mem_append, List.mem_singleton] at hX
    rcases hX with (hX | hX) | hX
    · rw [hX]; exact hj
    · exact (hXs X hX).1
    · rw [hX]; exact hb

/-- Witness of C9: the lines JPEG header, `X`, base64 header give one image. -/
theorem marker_lines_need_not_be_adjacent_witness :
    count_base64_jpgs (List.intercalate [10] ([JPEG_HEADER] ++ [[88]] ++ [BASE64_HEADER]))
      = some 1 :=
  marker_lines_need_not_be_adjacent [[88]] (by decide) (by decide)

theorem line_list_append_of_ends (B C : List Nat) (hB : B = [] ∨ ∃ B', B = B' ++ [10]) :
    line_list 10 (B ++ C) = line_list 10 B ++ line_list 10 C := by
  rcases hB with h | ⟨B', h⟩
  · subst h; rw [line_list_nil]; rfl
  · subst h
    have h1 := line_list_append_sep 10 B'.length B' C (le_refl _)
    have h2 := line_list_append_sep 10 B'.length B' [] (le_refl _)
    rw [line_list_nil, List.append_nil] at h2
    rw [List.append_assoc, List.singleton_append, h1, h2]

/-- C10: let `B` be empty or end with `'\n'`, and let `Xs` be lines that hold no `'\n'` and do
not start with the base64 header. Then `count_base64_jpgs` of `B` followed by the lines `Xs`
joined by `'\n'` (a buffer of a length a `size_t` holds) is `count_base64_jpgs` of `B`, and both
scans end with a count, not an error. A buffer that is the JPEG header line alone counts 0. -/
theorem unmatched_trailing_header_dropped (B : List Nat) (Xs : List (List Nat))
    (hB : B = [] ∨ ∃ B', B = B' ++ [10])
    (hXs : ∀ X ∈ Xs, 10 ∉ X ∧ ¬ BASE64_HEADER <+: X)
    (hlen : (B ++ List.intercalate [10] Xs).length < 2 ^ 64) :
    count_base64_jpgs (B ++ List.intercalate [10] Xs) = count_base64_jpgs B ∧
    (∃ n, count_base64_jpgs B = some n) ∧
    count_base64_jpgs JPEG_HEADER = some 0 := by
  have hBlen : B.length < 2 ^ 64 := by
    rw [List.length_append] at hlen; omega
  refine ⟨?_, ⟨_, count_base64_jpgs_eq B hBlen⟩, by decide⟩
  rw [count_base64_jpgs_eq _ hlen, count_base64_jpgs_eq B hBlen, line_list_append_of_ends B _ hB,
    line_list_intercalate 10 Xs (fun X hX => (hXs X hX).1)]
  unfold spec_count
  rw [List.foldl_append, foldl_no_base64_count]
  intro X hX
  exact (hXs X (List.mem_filter.1 hX).1).2

/-- Witness of C10: after a complete pair of marker lines, a JPEG header line and a line `X`. -/
theorem unmatched_trailing_header_dropped_witness :
    count_base64_jpgs
        ((JPEG_HEADER ++ [10] ++ BASE64_HEADER ++ [10]) ++ List.intercalate [10] [JPEG_HEADER, [88]])
      = count_base64_jpgs (JPEG_HEADER ++ [10] ++ BASE64_HEADER ++ [10]) ∧
    (∃ n, count_base64_jpgs (JPEG_HEADER ++ [10] ++ BASE64_HEADER ++ [10]) = some n) ∧
    count_base64_jpgs JPEG_HEADER = some 0 :=
  unmatched_trailing_header_dropped (JPEG_HEADER ++ [10] ++ BASE64_HEADER ++ [10])
    [JPEG_HEADER, [88]] (Or.inr ⟨JPEG_HEADER ++ [10] ++ BASE64_HEADER, rfl⟩) (by decide) (by decide)

theorem args_after_skip (argc : Nat) (h1 : 1 ≤ argc) (hint : argc < 2 ^ 31) :
    SPAN_FIRST (SPAN_ADV { data := 0, count := argc % SIZE_T_MOD }) 3
      = { data := 1, count := min (argc - 1) 3 } := by
  have hlt : argc < 2 ^ 64 := by omega
  have hmod : argc % SIZE_T_MOD = argc := Nat.mod_eq_of_lt hlt
  unfold SPAN_FIRST SPAN_ADV
  simp only [hmod]
  rw [size_sub_eq argc 1 h1 hlt]

theorem get_run_options_from_args_cases (m1 m2 : Bool) (argc : Nat) (argv : List (List Nat))
    (hargv : argv.length = argc) (h1 : 1 ≤ argc) (hint : argc < 2 ^ 31) :
    get_run_options_from_args m1 m2 argc argv
      = match argv with
        | [_] => some (PARSE_ARGS_MISSING_INPUT_FILE, none)
        | [_, _] => some (PARSE_ARGS_MISSING_OUTPUT_DIR, none)
        | [_, fp, od] =>
          some (PARSE_ARGS_SUCC, some { file_path := make_str m1 (some fp),
                                        output_dir := make_str m2 (some od),
                                        is_preview := false })
        | _ :: fp :: od :: p :: _ =>
          some (PARSE_ARGS_SUCC, some { file_path := make_str m1 (some fp),
                                        output_dir := make_str m2 (some od),
                                        is_preview := cstr_eq p (literal_bytes "--preview") })
        | [] => none := by
  unfold get_run_options_from_args
  simp only [args_after_skip argc h1 hint]
  rcases argv with _ | ⟨a0, _ | ⟨a1, _ | ⟨a2, _ | ⟨a3, rest⟩⟩⟩⟩
  · simp at hargv; omega
  · simp at hargv; subst hargv; rfl
  · simp at hargv; subst hargv; rfl
  · simp at hargv; subst hargv
    simp [SPAN_FIRST, c_assert]
  · simp at hargv; subst hargv
    have : min (rest.length + 1 + 1 + 1 + 1 - 1) 3 = 3 := by omega
    simp [SPAN_FIRST, c_assert, this]

theorem main_of_error (m1 m2 : Bool) (argc : Nat) (argv : List (List Nat))
    (load : str_t → Option (List Nat)) (err : parse_args_err_t) (out : Option run_options_t)
    (h : get_run_options_from_args m1 m2 argc argv = some (err, out))
    (herr : err ≠ PARSE_ARGS_SUCC) :
    main m1 m2 load argc argv = some 1 := by
  rewrite [main]
  generalize get_run_options_from_args m1 m2 argc argv = r at h
  subst h
  cases err
  · exact absurd rfl herr
  · rfl
  · rfl

theorem jpeg_line_not_base64 (s : str_t) (h : str_starts_with s CONTENT_TYPE_JPEG_LINE = true) :
    str_starts_with s BASE_64_ENCODING_HEADER_LINE = false := by
  obtain ⟨_, h2⟩ := (str_starts_with_iff s CONTENT_TYPE_JPEG_LINE).1 h
  cases hb : str_starts_with s BASE_64_ENCODING_HEADER_LINE with
  | false => rfl
  | true =>
    exfalso
    obtain ⟨_, h4⟩ := (str_starts_with_iff s BASE_64_ENCODING_HEADER_LINE).1 hb
    have hj : CONTENT_TYPE_JPEG_LINE.len = 24 := by decide
    have hl : BASE_64_ENCODING_HEADER_LINE.len = 33 := by decide
    rw [hj] at h2
    rw [hl] at h4
    have h5 := congrArg (List.take 24) h4
    rw [List.take_take, show min 24 33 = 24 from rfl, h2] at h5
    revert h5
    decide

/-- C12: a line that starts with the JPEG header does not start with the base64 header, so the
step of the scan loop in phase `SCAN_PHASE_CHECK_BASE_64` on such a line leaves the phase and
the count as they are. The lines JPEG header, JPEG header, base64 header count one image, and
so do the lines JPEG header, JPEG header, base64 header, base64 header. -/
theorem jpeg_header_in_check_phase_is_ignored (mem : List Nat) (sp : byte_span_t) (c : Nat)
    (h : str_starts_with { bytes := span_chars mem sp, len := sp.count }
      CONTENT_TYPE_JPEG_LINE = true) :
    str_starts_with { bytes := span_chars mem sp, len := sp.count }
      BASE_64_ENCODING_HEADER_LINE = false ∧
    scan_line mem (SCAN_PHASE_CHECK_BASE_64, c) sp = some (SCAN_PHASE_CHECK_BASE_64, c) ∧
    count_base64_jpgs (List.intercalate [10] [JPEG_HEADER, JPEG_HEADER, BASE64_HEADER])
      = some 1 ∧
    count_base64_jpgs
        (List.intercalate [10] [JPEG_HEADER, JPEG_HEADER, BASE64_HEADER, BASE64_HEADER])
      = some 1 := by
  have hb := jpeg_line_not_base64 _ h
  refine ⟨hb, ?_, by decide, by decide⟩
  simp only [scan_line, hb]
  rfl

/-- Witness of C12: the line `Content-Type: image/jpeg` followed by a carriage return. -/
theorem jpeg_header_in_check_phase_is_ignored_witness :
    scan_line (JPEG_HEADER ++ [13]) (SCAN_PHASE_CHECK_BASE_64, 0) ⟨some 0, 25⟩
      = some (SCAN_PHASE_CHECK_BASE_64, 0) :=
  (jpeg_header_in_check_phase_is_ignored (JPEG_HEADER ++ [13]) ⟨some 0, 25⟩ 0 (by decide)).2.1

theorem phase_of_two (ph : spec_state) :
    phase_of ph = SCAN_PHASE_LOOK_FOR_JPEG ∨ phase_of ph = SCAN_PHASE_CHECK_BASE_64 := by
  cases ph
  · exact Or.inl rfl
  · exact Or.inr rfl

theorem foldlM_scan_line_traced (B : List Nat) :
    ∀ (Ls : List byte_span_t) (ph : spec_state) (c : Nat) (tr : List scan_phase_t),
      (∀ sp ∈ Ls, ∃ o n, sp = ⟨some o, n⟩ ∧ o + n ≤ B.length) →
      c + Ls.length < 2 ^ 64 →
      ∃ tr', List.foldlM (scan_line_traced B) ((phase_of ph, c), tr) Ls
          = some ((phase_of ((Ls.map (span_bytes B)).foldl spec_step (ph, c)).1,
                   ((Ls.map (span_bytes B)).foldl spec_step (ph, c)).2), tr ++ tr') ∧
        tr'.length = Ls.length ∧
        ∀ p ∈ tr', p = SCAN_PHASE_LOOK_FOR_JPEG ∨ p = SCAN_PHASE_CHECK_BASE_64 := by
  intro Ls
  induction Ls with
  | nil =>
    intro ph c tr _ _
    exact ⟨[], by simp, rfl, by simp⟩
  | cons sp Ls ih =>
    intro ph c tr hin hc
    obtain ⟨o, n, e, hon⟩ := hin sp (List.mem_cons_self _ _)
    subst e
    rw [List.length_cons] at hc
    have hle := spec_step_count_le (ph, c) (span_bytes B ⟨some o, n⟩)
    simp only [] at hle
    obtain ⟨tr', h1, h2, h3⟩ := ih (spec_step (ph, c) (span_bytes B ⟨some o, n⟩)).1
      (spec_step (ph, c) (span_bytes B ⟨some o, n⟩)).2 (tr ++ [phase_of ph])
      (fun sp hsp => hin sp (List.mem_cons_of_mem _ hsp)) (by omega)
    refine ⟨phase_of ph :: tr', ?_, by simp [h2], ?_⟩
    · rw [List.foldlM_cons]
      have hstep : scan_line_traced B ((phase_of ph, c), tr) ⟨some o, n⟩
          = some ((phase_of (spec_step (ph, c) (span_bytes B ⟨some o, n⟩)).1,
                   (spec_step (ph, c) (span_bytes B ⟨some o, n⟩)).2), tr ++ [phase_of ph]) := by
        simp only [scan_line_traced]
        rw [scan_line_spec B o n c ph hon (by omega)]
      rw [hstep]
      simp only [Option.bind_eq_bind, Option.some_bind, List.map_cons, List.foldl_cons]
      rw [h1]
      simp
    · intro p hp
      rcases List.mem_cons.1 hp with e | hp
      · rw [e]; exact phase_of_two ph
      · exact h3 p hp

/-- C14: for every buffer `B` (of a length a `size_t` holds), the scan loop of
`count_base64_jpgs`, with its body recording the phase each round is entered with, ends; every
recorded phase, one for each line, and the phase at the end are `SCAN_PHASE_LOOK_FOR_JPEG` or
`SCAN_PHASE_CHECK_BASE_64`, so the default branch of the switch is never entered; the count at
the end is the result of `count_base64_jpgs`. A step from one of the two phases ends in one of
the two phases. -/
theorem scan_phase_is_one_of_two (B : List Nat) (fuel : Nat) (hB : B.length < 2 ^ 64)
    (hf : B.length < fuel) :
    (∃ final phases L,
      split_by B (whole B) 10 (scan_line_traced B) fuel ((SCAN_PHASE_LOOK_FOR_JPEG, 0), [])
        = some (final, phases) ∧
      split_by_spans B (whole B) 10 fuel = some L ∧
      phases.length = L.length ∧
      (∀ p ∈ phases, p = SCAN_PHASE_LOOK_FOR_JPEG ∨ p = SCAN_PHASE_CHECK_BASE_64) ∧
      (final.1 = SCAN_PHASE_LOOK_FOR_JPEG ∨ final.1 = SCAN_PHASE_CHECK_BASE_64) ∧
      count_base64_jpgs_fuel fuel B (whole B) = some final.2) ∧
    (∀ (mem : List Nat) (st st1 : scan_phase_t × Nat) (sp : byte_span_t),
      (st.1 = SCAN_PHASE_LOOK_FOR_JPEG ∨ st.1 = SCAN_PHASE_CHECK_BASE_64) →
      scan_line mem st sp = some st1 →
      (st1.1 = SCAN_PHASE_LOOK_FOR_JPEG ∨ st1.1 = SCAN_PHASE_CHECK_BASE_64)) := by
  constructor
  · have hin : ∀ sp ∈ runs 10 0 B, ∃ o n, sp = ⟨some o, n⟩ ∧ o + n ≤ B.length := by
      intro sp hsp
      obtain ⟨o, n, e, hr⟩ := (runs_whole_spec B 10).1 sp hsp
      exact ⟨o, n, e, hr.2.1⟩
    have hlen := runs_length_le 10 B.length B 0 (le_refl _)
    obtain ⟨tr, h1, h2, h3⟩ := foldlM_scan_line_traced B (runs 10 0 B) LOOK_FOR_JPEG_HEADER 0 []
      hin (by omega)
    rw [List.nil_append] at h1
    refine ⟨(phase_of ((List.map (span_bytes B) (runs 10 0 B)).foldl spec_step
        (LOOK_FOR_JPEG_HEADER, 0)).1,
      ((List.map (span_bytes B) (runs 10 0 B)).foldl spec_step (LOOK_FOR_JPEG_HEADER, 0)).2),
      tr, runs 10 0 B, ?_, split_by_spans_whole B 10 fuel hB hf, h2, h3, ?_, ?_⟩
    · rw [split_by_whole (scan_line_traced B) B 10 fuel _ hB hf]
      exact h1
    · exact phase_of_two _
    · rw [count_base64_jpgs_fuel_eq B fuel hB hf, runs_whole_bytes]
      rfl
  · intro mem st st1 sp hst hstep
    obtain ⟨p, c⟩ := st
    simp only at hst
    rcases hst with e | e
    · subst e
      simp only [scan_line] at hstep
      split at hstep
      · rw [← Option.some.inj hstep]; exact Or.inr rfl
      · rw [← Option.some.inj hstep]; exact Or.inl rfl
    · subst e
      simp only [scan_line] at hstep
      split at hstep
      · rw [← Option.some.inj hstep]; exact Or.inl rfl
      · rw [← Option.some.inj hstep]; exact Or.inr rfl

/-- Witness of C14 on the buffer of the lines JPEG header and base64 header. -/
theorem scan_phase_is_one_of_two_witness :
    ∃ final phases,
      split_by (List.intercalate [10] [JPEG_HEADER, BASE64_HEADER])
        (whole (List.intercalate [10] [JPEG_HEADER, BASE64_HEADER])) 10
        (scan_line_traced (List.intercalate [10] [JPEG_HEADER, BASE64_HEADER])) 60
        ((SCAN_PHASE_LOOK_FOR_JPEG, 0), []) = some (final, phases) ∧
      (∀ p ∈ phases, p = SCAN_PHASE_LOOK_FOR_JPEG ∨ p = SCAN_PHASE_CHECK_BASE_64) := by
  obtain ⟨⟨final, phases, _, h1, _, _, h2, _⟩, _⟩ :=
    scan_phase_is_one_of_two (List.intercalate [10] [JPEG_HEADER, BASE64_HEADER]) 60
      (by decide) (by decide)
  exact ⟨final, phases, h1, h2⟩

theorem get_first_split_some_of_inbounds (mem : List Nat) (o n s : Nat)
    (h : o + n ≤ mem.length) : ∃ r, get_first_split mem ⟨some o, n⟩ s = some r :=
  ⟨_, get_first_split_inbounds mem o n s h⟩

/-- C16: for every buffer `B` (of a length a `size_t` holds) and separator `s`, the `split_by`
loop ends without a fault, and every span it visits has non-null data at an offset `o` with
`o + count ≤ B.length`. For such a span the three assertions of `get_next_split` hold, the
`size_t` subtractions that give the remaining length do not wrap (the result is the exact
difference `B.length - count - o`), and the call returns a span, so that no byte outside `B`
is read; in the model a read outside the storage makes the result `none`. -/
theorem split_by_stays_in_bounds (B : List Nat) (s fuel : Nat) (hB : B.length < 2 ^ 64)
    (hf : B.length < fuel) :
    (∃ L, split_by_spans B (whole B) s fuel = some L ∧
      ∀ sp ∈ L, ∃ o, sp.data = some o ∧ o + sp.count ≤ B.length ∧
        sp.count ≤ (whole B).count ∧ o ≤ 0 + (whole B).count ∧
        sp.count + (o - 0) ≤ (whole B).count ∧
        size_sub (size_sub (whole B).count sp.count) (o - 0) + (sp.count + o) = B.length ∧
        get_next_split B sp (whole B) s
          = get_first_split B ⟨some (o + sp.count), B.length - sp.count - o⟩ s ∧
        ∃ r, get_next_split B sp (whole B) s = some r) ∧
    (∃ r, get_first_split B (whole B) s = some r) ∧
    get_first_split [1] ⟨some 0, 2⟩ 0 = none ∧
    get_next_split [1, 0] ⟨some 0, 3⟩ (whole [1, 0]) 0 = none := by
  refine ⟨⟨_, split_by_spans_whole B s fuel hB hf, ?_⟩, ⟨_, get_first_split_whole B s⟩,
    by decide, by decide⟩
  intro sp hsp
  obtain ⟨o, n, e, hr⟩ := (runs_whole_spec B s).1 sp hsp
  subst e
  have hon := hr.2.1
  have hnext := get_next_split_whole B o n s hon hB
  have hcnt : (whole B).count = B.length := rfl
  refine ⟨o, rfl, hon, ?_, ?_, ?_, ?_, ?_, ?_⟩
  · rw [hcnt]; simp only []; omega
  · rw [hcnt]; omega
  · rw [hcnt]; simp only []; omega
  · rw [hcnt]
    simp only [Nat.sub_zero]
    rw [size_sub_eq _ _ (by omega) hB, size_sub_eq _ _ (by omega) (by omega)]
    omega
  · rw [hnext]
    simp only []
    congr 2
    omega
  · rw [hnext]
    exact get_first_split_some_of_inbounds B (o + n) (B.length - (o + n)) s (by omega)

/-- Witness of C16 on the buffer `[0, 1, 2, 0, 3]` split at `0`. -/
theorem split_by_stays_in_bounds_witness :
    ∃ L, split_by_spans [0, 1, 2, 0, 3] (whole [0, 1, 2, 0, 3]) 0 6 = some L ∧
      ∀ sp ∈ L, ∃ o, sp.data = some o ∧ o + sp.count ≤ [0, 1, 2, 0, 3].length ∧
        sp.count ≤ (whole [0, 1, 2, 0, 3]).count ∧ o ≤ 0 + (whole [0, 1, 2, 0, 3]).count ∧
        sp.count + (o - 0) ≤ (whole [0, 1, 2, 0, 3]).count ∧
        size_sub (size_sub (whole [0, 1, 2, 0, 3]).count sp.count) (o - 0) + (sp.count + o)
          = [0, 1, 2, 0, 3].length ∧
        get_next_split [0, 1, 2, 0, 3] sp (whole [0, 1, 2, 0, 3]) 0
          = get_first_split [0, 1, 2, 0, 3]
              ⟨some (o + sp.count), [0, 1, 2, 0, 3].length - sp.count - o⟩ 0 ∧
        ∃ r, get_next_split [0, 1, 2, 0, 3] sp (whole [0, 1, 2, 0, 3]) 0 = some r :=
  (split_by_stays_in_bounds [0, 1, 2, 0, 3] 0 6 (by decide) (by decide)).1

theorem runs_length_half (s : Nat) :
    ∀ (k : Nat) (l : List Nat) (off : Nat), l.length ≤ k →
      2 * (runs s off l).length ≤ l.length + 1 := by
  intro k
  induction k with
  | zero =>
    intro l off hk
    have hl : l = [] := List.length_eq_zero.1 (by omega)
    subst hl
    rw [runs_nil]; simp
  | succ k ih =>
    intro l off hk
    cases l with
    | nil => rw [runs_nil]; simp
    | cons b t =>
      by_cases hb : b = s
      · subst hb
        rw [runs_cons_sep]
        have := ih t (off + 1) (by simp at hk; omega)
        simp only [List.length_cons]; omega
      · have hds := (List.dropWhile_sublist (l := t) (fun x => decide (x ≠ s))).length_le
        rw [runs_cons_ne s off b t hb]
        cases hdw : t.dropWhile (· ≠ s) with
        | nil =>
          rw [runs_nil]
          simp only [List.length_cons, List.length_nil]; omega
        | cons d dw =>
          have hd : d = s := by
            have := List.head_dropWhile_not (fun x => decide (x ≠ s)) t (by rw [hdw]; simp)
            simp only [hdw, List.head_cons] at this
            simpa using this
          subst hd
          rw [hdw, List.length_cons] at hds
          rw [runs_cons_sep]
          have := ih dw (off + 1 + (t.takeWhile (· ≠ d)).length + 1)
            (by simp at hk; omega)
          simp only [List.length_cons]; omega

theorem runs_last_then_separators (s : Nat) :
    ∀ (k : Nat) (l pre : List Nat), l.length ≤ k →
      ∀ last, (runs s pre.length l).getLast? = some last →
        ∃ o n, last = ⟨some o, n⟩ ∧ o + n ≤ (pre ++ l).length
          ∧ ∀ b ∈ (pre ++ l).drop (o + n), b = s := by
  intro k
  induction k with
  | zero =>
    intro l pre hk last hlast
    have hl : l = [] := List.length_eq_zero.1 (by omega)
    subst hl
    rw [runs_nil] at hlast
    exact Option.noConfusion hlast
  | succ k ih =>
    intro l pre hk last hlast
    cases l with
    | nil =>
      rw [runs_nil] at hlast
      exact Option.noConfusion hlast
    | cons b t =>
      by_cases hb : b = s
      · subst hb
        have e : pre ++ b :: t = (pre ++ [b]) ++ t := by simp
        have el : (pre ++ [b]).length = pre.length + 1 := by simp
        rw [runs_cons_sep, ← el] at hlast
        rw [e]
        exact ih t (pre ++ [b]) (by simp at hk; omega) last hlast
      · have hsplit : t = t.takeWhile (· ≠ s) ++ t.dropWhile (· ≠ s) :=
          (List.takeWhile_append_dropWhile _ t).symm
        have e : pre ++ b :: t = (pre ++ b :: t.takeWhile (· ≠ s)) ++ t.dropWhile (· ≠ s) := by
          conv_lhs => rw [hsplit]
          simp
        have el : (pre ++ b :: t.takeWhile (· ≠ s)).length
            = pre.length + 1 + (t.takeWhile (· ≠ s)).length := by
          rw [List.length_append, List.length_cons]; omega
        have hds := (List.dropWhile_sublist (l := t) (fun x => decide (x ≠ s))).length_le
        rw [runs_cons_ne s _ b t hb, ← el] at hlast
        cases hrest : runs s (pre ++ b :: t.takeWhile (· ≠ s)).length (t.dropWhile (· ≠ s)) with
        | nil =>
          rw [hrest] at hlast
          simp only [List.getLast?_singleton, Option.some.injEq] at hlast
          refine ⟨pre.length, (t.takeWhile (· ≠ s)).length + 1, hlast.symm, ?_, ?_⟩
          · have htw := (List.takeWhile_sublist (l := t) (fun x => decide (x ≠ s))).length_le
            simp only [List.length_append, List.length_cons]
            omega
          · have hall := (runs_eq_nil_iff s (t.dropWhile (· ≠ s)) _).1 hrest
            have e2 : pre.length + ((t.takeWhile (· ≠ s)).length + 1)
                = (pre ++ b :: t.takeWhile (· ≠ s)).length := by rw [el]; omega
            rw [e2, e, List.drop_left]
            exact hall
        | cons r rs =>
          rw [hrest, List.getLast?_cons_cons] at hlast
          rw [← hrest] at hlast
          rw [e]
          exact ih (t.dropWhile (· ≠ s)) (pre ++ b :: t.takeWhile (· ≠ s))
            (by simp at hk; omega) last hlast

theorem first_line_nil_of_all (s : Nat) (l : List Nat) (h : ∀ b ∈ l, b = s) :
    first_line s l = [] := (first_line_eq_nil_iff_all s l).2 h

/-- C17: for every buffer `B` (of a length `n` a `size_t` holds) and separator `s`, the
`split_by` loop ends for every fuel beyond `n`, always with the same list `L` of visited
spans; `L` has at most `(n + 1) / 2` spans; each span ends strictly before the next starts;
every visited span has non-null data, and the span that follows the last one (the first one
when no line is visited) is the null-data sentinel. With `'\n'` as the separator the loop of
`count_base64_jpgs` ends with a count. -/
theorem split_by_terminates_with_bounded_lines (B : List Nat) (s : Nat)
    (hB : B.length < 2 ^ 64) :
    ∃ L, (∀ fuel, B.length < fuel → split_by_spans B (whole B) s fuel = some L) ∧
      L.length ≤ (B.length + 1) / 2 ∧
      L.Pairwise ends_before ∧
      (∀ sp ∈ L, sp.data ≠ none) ∧
      (match L.getLast? with
        | none => get_first_split B (whole B) s = some ⟨none, 0⟩
        | some last => get_next_split B last (whole B) s = some ⟨none, 0⟩) ∧
      (∃ n, count_base64_jpgs B = some n ∧
        ∀ fuel, B.length < fuel → count_base64_jpgs_fuel fuel B (whole B) = some n) := by
  obtain ⟨hA, _, hP⟩ := runs_whole_spec B s
  refine ⟨runs s 0 B, fun fuel hf => split_by_spans_whole B s fuel hB hf, ?_, hP, ?_, ?_,
    ⟨_, count_base64_jpgs_eq B hB, fun fuel hf => count_base64_jpgs_fuel_eq B fuel hB hf⟩⟩
  · have := runs_length_half s B.length B 0 (le_refl _)
    omega
  · intro sp hsp
    obtain ⟨o, n, e, _⟩ := hA sp hsp
    rw [e]
    exact fun hc => Option.noConfusion hc
  · cases hlast : (runs s 0 B).getLast? with
    | none =>
      simp only []
      have hnil : runs s 0 B = [] := List.getLast?_eq_none_iff.1 hlast
      have hall := (runs_eq_nil_iff s B 0).1 hnil
      rw [get_first_split_whole, if_pos (first_line_nil_of_all s B hall)]
    | some last =>
      simp only []
      have h := runs_last_then_separators s B.length B [] (le_refl _) last
        (by simpa using hlast)
      obtain ⟨o, n, e, hon, hall⟩ := h
      rw [List.nil_append] at hon hall
      subst e
      rw [get_next_split_whole B o n s hon hB, get_first_split_inbounds B (o + n) _ s (by omega)]
      have hfl : first_line s (List.take (B.length - (o + n)) (List.drop (o + n) B)) = [] := by
        apply first_line_nil_of_all
        intro b hb
        exact hall b (List.mem_of_mem_take hb)
      rw [if_pos hfl]

/-- Witness of C17 on the buffer `[1, 0, 2, 0, 3]` split at `0`: three lines, `(5 + 1) / 2`. -/
theorem split_by_terminates_with_bounded_lines_witness :
    ∃ L, (∀ fuel, [1, 0, 2, 0, 3].length < fuel →
        split_by_spans [1, 0, 2, 0, 3] (whole [1, 0, 2, 0, 3]) 0 fuel = some L) ∧
      L.length ≤ ([1, 0, 2, 0, 3].length + 1) / 2 ∧
      L.Pairwise ends_before ∧
      (∀ sp ∈ L, sp.data ≠ none) ∧
      (match L.getLast? with
        | none => get_first_split [1, 0, 2, 0, 3] (whole [1, 0, 2, 0, 3]) 0 = some ⟨none, 0⟩
        | some last =>
          get_next_split [1, 0, 2, 0, 3] last (whole [1, 0, 2, 0, 3]) 0 = some ⟨none, 0⟩) ∧
      (∃ n, count_base64_jpgs [1, 0, 2, 0, 3] = some n ∧
        ∀ fuel, [1, 0, 2, 0, 3].length < fuel →
          count_base64_jpgs_fuel fuel [1, 0, 2, 0, 3] (whole [1, 0, 2, 0, 3]) = some n) :=
  split_by_terminates_with_bounded_lines [1, 0, 2, 0, 3] 0 (by decide)

theorem spec_step_shift (ph : spec_state) (c k : Nat) (X : List Nat) :
    spec_step (ph, c + k) X = ((spec_step (ph, c) X).1, (spec_step (ph, c) X).2 + k) := by
  cases ph
  · simp only [spec_step]
    split <;> rfl
  · simp only [spec_step]
    split
    · simp only [Prod.mk.injEq, true_and]; omega
    · rfl

theorem foldl_spec_step_shift (Ls : List (List Nat)) :
    ∀ (ph : spec_state) (c k : Nat),
      Ls.foldl spec_step (ph, c + k)
        = ((Ls.foldl spec_step (ph, c)).1, (Ls.foldl spec_step (ph, c)).2 + k) := by
  induction Ls with
  | nil => intro ph c k; rfl
  | cons X Ls ih =>
    intro ph c k
    rw [List.foldl_cons, List.foldl_cons, spec_step_shift]
    exact ih _ _ k

theorem scan_final_state (B : List Nat) (fuel : Nat) (hB : B.length < 2 ^ 64)
    (hf : B.length < fuel) :
    split_by B (whole B) 10 (scan_line B) fuel (SCAN_PHASE_LOOK_FOR_JPEG, 0)
      = some (phase_of ((line_list 10 B).foldl spec_step (LOOK_FOR_JPEG_HEADER, 0)).1,
              ((line_list 10 B).foldl spec_step (LOOK_FOR_JPEG_HEADER, 0)).2) := by
  rw [split_by_whole (scan_line B) B 10 fuel _ hB hf]
  have hin : ∀ sp ∈ runs 10 0 B, ∃ o n, sp = ⟨some o, n⟩ ∧ o + n ≤ B.length := by
    intro sp hsp
    obtain ⟨o, n, e, hr⟩ := (runs_whole_spec B 10).1 sp hsp
    exact ⟨o, n, e, hr.2.1⟩
  have hlen := runs_length_le 10 B.length B 0 (le_refl _)
  have hfold := foldlM_scan_line B (runs 10 0 B) LOOK_FOR_JPEG_HEADER 0 hin (by omega)
  rw [runs_whole_bytes] at hfold
  exact hfold

theorem phase_of_look (ph : spec_state) (h : phase_of ph = SCAN_PHASE_LOOK_FOR_JPEG) :
    ph = LOOK_FOR_JPEG_HEADER := by
  cases ph
  · rfl
  · exact scan_phase_t.noConfusion h

theorem spec_step_pair (c : Nat) :
    spec_step (spec_step (LOOK_FOR_JPEG_HEADER, c) JPEG_HEADER) BASE64_HEADER
      = (LOOK_FOR_JPEG_HEADER, c + 1) := by
  have h1 : JPEG_HEADER <+: JPEG_HEADER := List.prefix_refl _
  have h2 : BASE64_HEADER <+: BASE64_HEADER := List.prefix_refl _
  simp [spec_step, h1, h2]

theorem foldl_pairs (n : Nat) :
    ∀ c, (List.replicate n [JPEG_HEADER, BASE64_HEADER]).flatten.foldl spec_step
        (LOOK_FOR_JPEG_HEADER, c) = (LOOK_FOR_JPEG_HEADER, c + n) := by
  induction n with
  | zero => intro c; rfl
  | succ n ih =>
    intro c
    rw [List.replicate_succ, List.flatten_cons]
    simp only [List.cons_append, List.nil_append, List.foldl_cons]
    rw [spec_step_pair, ih]
    congr 1
    omega

theorem pairs_lines (n : Nat) :
    line_list 10 (List.intercalate [10] (List.replicate n [JPEG_HEADER, BASE64_HEADER]).flatten)
      = (List.replicate n [JPEG_HEADER, BASE64_HEADER]).flatten := by
  obtain ⟨hj, hb, hjne, hbne⟩ := sep_not_in_headers
  have hmem : ∀ X ∈ (List.replicate n [JPEG_HEADER, BASE64_HEADER]).flatten,
      X = JPEG_HEADER ∨ X = BASE64_HEADER := by
    intro X hX
    obtain ⟨l, hl, hXl⟩ := List.mem_flatten.1 hX
    rw [(List.mem_replicate.1 hl).2] at hXl
    simpa using hXl
  rw [line_list_intercalate]
  · rw [List.filter_eq_self]
    intro X hX
    rcases hmem X hX with e | e <;> simp [e, hjne, hbne]
  · intro X hX
    rcases hmem X hX with e | e
    · rw [e]; exact hj
    · rw [e]; exact hb

/-- C11: let the scan of `B1` end in phase `SCAN_PHASE_LOOK_FOR_JPEG` with count `c1`. Then
`count_base64_jpgs` of `B1`, a `'\n'` and `B2` (a buffer of a length a `size_t` holds) is `c1`
plus `count_base64_jpgs` of `B2`. The scan of the empty buffer ends in that phase, and so does
the scan of `n` complete pairs of the JPEG header line and the base64 header line, which
counts `n`; two pairs count 2. -/
theorem complete_pairs_count_additively (B1 B2 : List Nat) (c1 : Nat)
    (hlen : (B1 ++ [10] ++ B2).length < 2 ^ 64)
    (hfin : split_by B1 (whole B1) 10 (scan_line B1) (B1.length + 2)
      (SCAN_PHASE_LOOK_FOR_JPEG, 0) = some (SCAN_PHASE_LOOK_FOR_JPEG, c1)) :
    (∃ c2, count_base64_jpgs B1 = some c1 ∧ count_base64_jpgs B2 = some c2 ∧
      count_base64_jpgs (B1 ++ [10] ++ B2) = some (c1 + c2)) ∧
    split_by [] (whole []) 10 (scan_line []) 2 (SCAN_PHASE_LOOK_FOR_JPEG, 0)
      = some (SCAN_PHASE_LOOK_FOR_JPEG, 0) ∧
    (∀ n fuel,
      (List.intercalate [10] (List.replicate n [JPEG_HEADER, BASE64_HEADER]).flatten).length
        < 2 ^ 64 →
      (List.intercalate [10] (List.replicate n [JPEG_HEADER, BASE64_HEADER]).flatten).length
        < fuel →
      split_by (List.intercalate [10] (List.replicate n [JPEG_HEADER, BASE64_HEADER]).flatten)
        (whole (List.intercalate [10] (List.replicate n [JPEG_HEADER, BASE64_HEADER]).flatten))
        10
        (scan_line (List.intercalate [10]
          (List.replicate n [JPEG_HEADER, BASE64_HEADER]).flatten))
        fuel (SCAN_PHASE_LOOK_FOR_JPEG, 0) = some (SCAN_PHASE_LOOK_FOR_JPEG, n) ∧
      count_base64_jpgs
        (List.intercalate [10] (List.replicate n [JPEG_HEADER, BASE64_HEADER]).flatten)
        = some n) ∧
    count_base64_jpgs
      (List.intercalate [10] [JPEG_HEADER, BASE64_HEADER, JPEG_HEADER, BASE64_HEADER])
      = some 2 := by
  have hB1 : B1.length < 2 ^ 64 := by
    simp only [List.length_append] at hlen; omega
  have hB2 : B2.length < 2 ^ 64 := by
    simp only [List.length_append] at hlen; omega
  refine ⟨⟨_, ?_, count_base64_jpgs_eq B2 hB2, ?_⟩, by decide, ?_, by decide⟩
  · rw [count_base64_jpgs_eq B1 hB1]
    rw [scan_final_state B1 _ hB1 (by omega)] at hfin
    have := (Prod.mk.inj (Option.some.inj hfin)).2
    exact congrArg some this
  · rw [scan_final_state B1 _ hB1 (by omega)] at hfin
    obtain ⟨hph, hc⟩ := Prod.mk.inj (Option.some.inj hfin)
    have hph2 := phase_of_look _ hph
    have hst : (line_list 10 B1).foldl spec_step (LOOK_FOR_JPEG_HEADER, 0)
        = (LOOK_FOR_JPEG_HEADER, c1) := Prod.ext hph2 hc
    rw [count_base64_jpgs_eq _ hlen, List.append_assoc, List.singleton_append,
      line_list_append_sep 10 B1.length B1 B2 (le_refl _)]
    unfold spec_count
    rw [List.foldl_append, hst]
    have := foldl_spec_step_shift (line_list 10 B2) LOOK_FOR_JPEG_HEADER 0 c1
    rw [Nat.zero_add] at this
    rw [this]
    simp only [Option.some.injEq]
    omega
  · intro n fuel hn hf
    constructor
    · rw [scan_final_state _ fuel hn hf, pairs_lines, foldl_pairs]
      simp [phase_of]
    · rw [count_base64_jpgs_eq _ hn, pairs_lines]
      unfold spec_count
      rw [foldl_pairs]
      simp

/-- Witness of C11: one complete pair followed by one complete pair. -/
theorem complete_pairs_count_additively_witness :
    ∃ c2, count_base64_jpgs (List.intercalate [10] [JPEG_HEADER, BASE64_HEADER]) = some 1 ∧
      count_base64_jpgs (List.intercalate [10] [JPEG_HEADER, BASE64_HEADER]) = some c2 ∧
      count_base64_jpgs (List.intercalate [10] [JPEG_HEADER, BASE64_HEADER] ++ [10]
        ++ List.intercalate [10] [JPEG_HEADER, BASE64_HEADER]) = some (1 + c2) :=
  (complete_pairs_count_additively (List.intercalate [10] [JPEG_HEADER, BASE64_HEADER])
    (List.intercalate [10] [JPEG_HEADER, BASE64_HEADER]) 1 (by decide) (by decide)).1

theorem starts_with_bytes (X : List Nat) (lit : String) :
    str_starts_with ⟨X, X.length⟩ (cstr lit) = true ↔ literal_bytes lit <+: X := by
  have h := starts_with_line X 0 X.length lit (by omega)
  simpa using h

theorem spec_step_bounds (ph : spec_state) (c : Nat) (X : List Nat) :
    (spec_step (ph, c) X).2 + pending (spec_step (ph, c) X).1
        ≤ c + pending ph + (if JPEG_HEADER <+: X then 1 else 0) ∧
    (spec_step (ph, c) X).2 ≤ c + (if BASE64_HEADER <+: X then 1 else 0) := by
  cases ph
  · simp only [spec_step]
    by_cases hj : JPEG_HEADER <+: X
    · simp only [hj, if_true, pending]; omega
    · simp only [hj, if_false, pending]; omega
  · simp only [spec_step]
    by_cases hb : BASE64_HEADER <+: X
    · simp only [hb, if_true, pending]
      constructor
      · split <;> omega
      · omega
    · simp only [hb, if_false, pending]
      constructor
      · split <;> omega
      · omega

theorem foldl_spec_step_bounds (Ls : List (List Nat)) :
    ∀ (ph : spec_state) (c : Nat),
      (Ls.foldl spec_step (ph, c)).2 + pending (Ls.foldl spec_step (ph, c)).1
          ≤ c + pending ph + Ls.countP (fun X => decide (JPEG_HEADER <+: X)) ∧
      (Ls.foldl spec_step (ph, c)).2 ≤ c + Ls.countP (fun X => decide (BASE64_HEADER <+: X)) := by
  induction Ls with
  | nil => intro ph c; simp
  | cons X Ls ih =>
    intro ph c
    obtain ⟨h1, h2⟩ := spec_step_bounds ph c X
    obtain ⟨h3, h4⟩ := ih (spec_step (ph, c) X).1 (spec_step (ph, c) X).2
    simp only [Prod.mk.eta] at h3 h4
    rw [List.foldl_cons, List.countP_cons, List.countP_cons]
    simp only [decide_eq_true_eq]
    constructor <;> omega

theorem foldl_look_stays (Ls : List (List Nat)) (c : Nat)
    (h : ∀ X ∈ Ls, ¬ JPEG_HEADER <+: X) :
    Ls.foldl spec_step (LOOK_FOR_JPEG_HEADER, c) = (LOOK_FOR_JPEG_HEADER, c) := by
  induction Ls with
  | nil => rfl
  | cons X Ls ih =>
    have hX := h X (List.mem_cons_self _ _)
    rw [List.foldl_cons]
    have : spec_step (LOOK_FOR_JPEG_HEADER, c) X = (LOOK_FOR_JPEG_HEADER, c) := by
      simp [spec_step, hX]
    rw [this]
    exact ih (fun Y hY => h Y (List.mem_cons_of_mem _ hY))

theorem countP_starts_with (Ls : List (List Nat)) (lit : String) :
    Ls.countP (fun X => str_starts_with ⟨X, X.length⟩ (cstr lit))
      = Ls.countP (fun X => decide (literal_bytes lit <+: X)) := by
  apply List.countP_congr
  intro X _
  simp only [decide_eq_true_eq]
  exact starts_with_bytes X lit

/-- C18: for every buffer `B` (of a length a `size_t` holds), with `L` the lines the scan loop
visits, `count_base64_jpgs` returns a count `n` that is at most the number of lines that start
with the JPEG header and at most the number of lines that start with the base64 header; `n`
is 0 when no line starts with the JPEG header or none starts with the base64 header; and when
none of the first `k` lines starts with the JPEG header, `n` is at most the number of base64
header lines after those `k` lines. -/
theorem count_needs_both_marker_lines (B : List Nat) (hB : B.length < 2 ^ 64) :
    ∃ L n, split_by_spans B (whole B) 10 (B.length + 2) = some L ∧
      count_base64_jpgs B = some n ∧
      n ≤ (L.map (span_bytes B)).countP
            (fun X => str_starts_with ⟨X, X.length⟩ CONTENT_TYPE_JPEG_LINE) ∧
      n ≤ (L.map (span_bytes B)).countP
            (fun X => str_starts_with ⟨X, X.length⟩ BASE_64_ENCODING_HEADER_LINE) ∧
      ((∀ X ∈ L.map (span_bytes B),
          str_starts_with ⟨X, X.length⟩ CONTENT_TYPE_JPEG_LINE = false) → n = 0) ∧
      ((∀ X ∈ L.map (span_bytes B),
          str_starts_with ⟨X, X.length⟩ BASE_64_ENCODING_HEADER_LINE = false) → n = 0) ∧
      (∀ k, (∀ X ∈ (L.map (span_bytes B)).take k,
          str_starts_with ⟨X, X.length⟩ CONTENT_TYPE_JPEG_LINE = false) →
        n ≤ ((L.map (span_bytes B)).drop k).countP
              (fun X => str_starts_with ⟨X, X.length⟩ BASE_64_ENCODING_HEADER_LINE)) := by
  refine ⟨_, _, split_by_spans_whole B 10 (B.length + 2) hB (by omega),
    count_base64_jpgs_eq B hB, ?_⟩
  rw [runs_whole_bytes]
  generalize line_list 10 B = Ls
  have hJ : ∀ Ms : List (List Nat),
      Ms.countP (fun X => str_starts_with ⟨X, X.length⟩ CONTENT_TYPE_JPEG_LINE)
        = Ms.countP (fun X => decide (JPEG_HEADER <+: X)) :=
    fun Ms => countP_starts_with Ms "Content-Type: image/jpeg"
  have hK : ∀ Ms : List (List Nat),
      Ms.countP (fun X => str_starts_with ⟨X, X.length⟩ BASE_64_ENCODING_HEADER_LINE)
        = Ms.countP (fun X => decide (BASE64_HEADER <+: X)) :=
    fun Ms => countP_starts_with Ms "Content-Transfer-Encoding: base64"
  obtain ⟨h1, h2⟩ := foldl_spec_step_bounds Ls LOOK_FOR_JPEG_HEADER 0
  have hn1 : spec_count Ls ≤ Ls.countP (fun X => decide (JPEG_HEADER <+: X)) := by
    unfold spec_count
    simp only [pending] at h1
    omega
  have hn2 : spec_count Ls ≤ Ls.countP (fun X => decide (BASE64_HEADER <+: X)) := by
    unfold spec_count
    omega
  refine ⟨by rw [hJ]; exact hn1, by rw [hK]; exact hn2, ?_, ?_, ?_⟩
  · intro hno
    have : Ls.countP (fun X => str_starts_with ⟨X, X.length⟩ CONTENT_TYPE_JPEG_LINE) = 0 := by
      rw [List.countP_eq_zero]
      intro X hX
      simp [hno X hX]
    rw [hJ] at this
    omega
  · intro hno
    have : Ls.countP (fun X => str_starts_with ⟨X, X.length⟩ BASE_64_ENCODING_HEADER_LINE)
        = 0 := by
      rw [List.countP_eq_zero]
      intro X hX
      simp [hno X hX]
    rw [hK] at this
    omega
  · intro k hk
    have hstay : (Ls.take k).foldl spec_step (LOOK_FOR_JPEG_HEADER, 0)
        = (LOOK_FOR_JPEG_HEADER, 0) := by
      apply foldl_look_stays
      intro X hX hp
      have := (starts_with_bytes X "Content-Type: image/jpeg").2 hp
      have h0 := hk X hX
      rw [CONTENT_TYPE_JPEG_LINE] at h0
      rw [this] at h0
      exact Bool.noConfusion h0
    have hsplit : spec_count Ls = ((Ls.drop k).foldl spec_step (LOOK_FOR_JPEG_HEADER, 0)).2 := by
      unfold spec_count
      conv_lhs => rw [← List.take_append_drop k Ls, List.foldl_append, hstay]
    rw [hsplit, hK]
    have := (foldl_spec_step_bounds (Ls.drop k) LOOK_FOR_JPEG_HEADER 0).2
    omega

/-- Witness of C18 on the buffer of the lines base64 header, JPEG header, base64 header. -/
theorem count_needs_both_marker_lines_witness :
    ∃ L n, split_by_spans (List.intercalate [10] [BASE64_HEADER, JPEG_HEADER, BASE64_HEADER])
        (whole (List.intercalate [10] [BASE64_HEADER, JPEG_HEADER, BASE64_HEADER])) 10
        ((List.intercalate [10] [BASE64_HEADER, JPEG_HEADER, BASE64_HEADER]).length + 2)
        = some L ∧
      count_base64_jpgs (List.intercalate [10] [BASE64_HEADER, JPEG_HEADER, BASE64_HEADER])
        = some n ∧
      n ≤ (L.map (span_bytes (List.intercalate [10]
            [BASE64_HEADER, JPEG_HEADER, BASE64_HEADER]))).countP
            (fun X => str_starts_with ⟨X, X.length⟩ CONTENT_TYPE_JPEG_LINE) := by
  obtain ⟨L, n, h1, h2, h3, _⟩ := count_needs_both_marker_lines
    (List.intercalate [10] [BASE64_HEADER, JPEG_HEADER, BASE64_HEADER]) (by decide)
  exact ⟨L, n, h1, h2, h3⟩

theorem prefix_append_cr (H X : List Nat) (hH : 13 ∉ H) : H <+: X ++ [13] ↔ H <+: X := by
  constructor
  · intro h
    rcases List.prefix_concat_iff.1 h with e | h
    · exact absurd (by rw [e]; simp) hH
    · exact h
  · intro h
    exact h.trans (List.prefix_append X [13])

theorem cr_not_in_headers : 13 ∉ JPEG_HEADER ∧ 13 ∉ BASE64_HEADER := by decide

theorem spec_step_cr (st : spec_state × Nat) (X : List Nat) :
    spec_step st (X ++ [13]) = spec_step st X := by
  obtain ⟨hj, hb⟩ := cr_not_in_headers
  unfold spec_step
  split
  · simp only [prefix_append_cr JPEG_HEADER X hj]
  · simp only [prefix_append_cr BASE64_HEADER X hb]

theorem spec_step_nil (st : spec_state × Nat) : spec_step st [] = st := by
  obtain ⟨_, _, hjne, hbne⟩ := sep_not_in_headers
  unfold spec_step
  split
  · simp [List.prefix_nil, hjne]
  · simp [List.prefix_nil, hbne]

theorem foldl_filter_nonempty (Ls : List (List Nat)) :
    ∀ st, (Ls.filter (· ≠ [])).foldl spec_step st = Ls.foldl spec_step st := by
  induction Ls with
  | nil => intro st; rfl
  | cons X Ls ih =>
    intro st
    by_cases hX : X = []
    · subst hX
      rw [List.foldl_cons, spec_step_nil, ← ih]
      simp
    · have : (X :: Ls).filter (· ≠ []) = X :: Ls.filter (· ≠ []) := by simp [hX]
      rw [this, List.foldl_cons, List.foldl_cons, ih]

theorem foldl_lines_crlf (Xs : List (List Nat)) (hXs : ∀ X ∈ Xs, 10 ∉ X) :
    ∀ st, (line_list 10 (List.intercalate [13, 10] Xs)).foldl spec_step st
      = Xs.foldl spec_step st := by
  induction Xs with
  | nil => intro st; simp [List.intercalate, line_list_nil]
  | cons X Ys ih =>
    intro st
    have hX : 10 ∉ X := hXs X (List.mem_cons_self _ _)
    have hYs : ∀ Y ∈ Ys, 10 ∉ Y := fun Y hY => hXs Y (List.mem_cons_of_mem _ hY)
    cases Ys with
    | nil =>
      rw [intercalate_one]
      by_cases hne : X = []
      · subst hne; rw [line_list_nil, List.foldl_cons, spec_step_nil]
      · rw [line_list_single 10 X hX hne]
    | cons Y Ys =>
      have e : List.intercalate [13, 10] (X :: Y :: Ys)
          = (X ++ [13]) ++ 10 :: List.intercalate [13, 10] (Y :: Ys) := by
        rw [intercalate_two]; simp
      have hX2 : 10 ∉ X ++ [13] := by
        intro h
        rcases List.mem_append.1 h with h | h
        · exact hX h
        · simp at h
      rw [e, line_list_line_sep 10 (X ++ [13]) _ hX2 (by simp), List.foldl_cons,
        List.foldl_cons, spec_step_cr]
      exact ih hYs _

theorem intercalate_length_le (Xs : List (List Nat)) :
    (List.intercalate [10] Xs).length ≤ (List.intercalate [13, 10] Xs).length := by
  induction Xs with
  | nil => simp [List.intercalate]
  | cons X Ys ih =>
    cases Ys with
    | nil => rw [intercalate_one, intercalate_one]
    | cons Y Ys =>
      rw [intercalate_two, intercalate_two]
      simp only [List.length_append, List.length_cons, List.length_nil]
      omega

theorem starts_with_cr (X : List Nat) (lit : String) (h : 13 ∉ literal_bytes lit) :
    str_starts_with ⟨X ++ [13], (X ++ [13]).length⟩ (cstr lit)
      = str_starts_with ⟨X, X.length⟩ (cstr lit) := by
  rw [Bool.eq_iff_iff, starts_with_bytes, starts_with_bytes]
  exact prefix_append_cr _ X h

/-- C19: for every list `Xs` of lines that hold no `'\n'` (the buffer joined with `"\r\n"`
being of a length a `size_t` holds), `count_base64_jpgs` of the lines joined with `"\r\n"` is
`count_base64_jpgs` of the lines joined with `"\n"`, and it is a count. A line followed by a
carriage return starts with the JPEG header, or with the base64 header, exactly when the line
does, and the line `"\r"` starts with neither. -/
theorem carriage_returns_do_not_change_count (Xs : List (List Nat))
    (hXs : ∀ X ∈ Xs, 10 ∉ X) (hlen : (List.intercalate [13, 10] Xs).length < 2 ^ 64) :
    count_base64_jpgs (List.intercalate [13, 10] Xs)
      = count_base64_jpgs (List.intercalate [10] Xs) ∧
    (∃ n, count_base64_jpgs (List.intercalate [13, 10] Xs) = some n) ∧
    (∀ X : List Nat,
      str_starts_with ⟨X ++ [13], (X ++ [13]).length⟩ CONTENT_TYPE_JPEG_LINE
        = str_starts_with ⟨X, X.length⟩ CONTENT_TYPE_JPEG_LINE ∧
      str_starts_with ⟨X ++ [13], (X ++ [13]).length⟩ BASE_64_ENCODING_HEADER_LINE
        = str_starts_with ⟨X, X.length⟩ BASE_64_ENCODING_HEADER_LINE) ∧
    str_starts_with ⟨[13], 1⟩ CONTENT_TYPE_JPEG_LINE = false ∧
    str_starts_with ⟨[13], 1⟩ BASE_64_ENCODING_HEADER_LINE = false := by
  have hlen2 : (List.intercalate [10] Xs).length < 2 ^ 64 :=
    lt_of_le_of_lt (intercalate_length_le Xs) hlen
  obtain ⟨hj, hb⟩ := cr_not_in_headers
  refine ⟨?_, ⟨_, count_base64_jpgs_eq _ hlen⟩, ?_, by decide, by decide⟩
  · rw [count_base64_jpgs_eq _ hlen, count_base64_jpgs_eq _ hlen2,
      line_list_intercalate 10 Xs hXs]
    unfold spec_count
    rw [foldl_lines_crlf Xs hXs, foldl_filter_nonempty]
  · intro X
    exact ⟨starts_with_cr X "Content-Type: image/jpeg" hj,
      starts_with_cr X "Content-Transfer-Encoding: base64" hb⟩

/-- Witness of C19: the lines JPEG header, empty line, base64 header. -/
theorem carriage_returns_do_not_change_count_witness :
    count_base64_jpgs (List.intercalate [13, 10] [JPEG_HEADER, [], BASE64_HEADER])
      = count_base64_jpgs (List.intercalate [10] [JPEG_HEADER, [], BASE64_HEADER]) :=
  (carriage_returns_do_not_change_count [JPEG_HEADER, [], BASE64_HEADER]
    (by decide) (by decide)).1

theorem spec_step_count_ge (st : spec_state × Nat) (X : List Nat) :
    st.2 ≤ (spec_step st X).2 := by
  unfold spec_step
  split
  · split <;> simp
  · split <;> simp

theorem foldl_spec_step_count_ge (Ls : List (List Nat)) :
    ∀ st, st.2 ≤ (Ls.foldl spec_step st).2 := by
  induction Ls with
  | nil => intro st; exact le_refl _
  | cons X Ls ih =>
    intro st
    rw [List.foldl_cons]
    exact le_trans (spec_step_count_ge st X) (ih _)

theorem spec_step_extend (st : spec_state × Nat) (X Y : List Nat) :
    (spec_step st X).2 ≤ (spec_step st (X ++ Y)).2 := by
  have hp : ∀ H : List Nat, H <+: X → H <+: X ++ Y :=
    fun H h => h.trans (List.prefix_append X Y)
  unfold spec_step
  split
  · by_cases h : JPEG_HEADER <+: X
    · simp [h, hp _ h]
    · simp only [h, if_false]
      split <;> simp
  · by_cases h : BASE64_HEADER <+: X
    · simp [h, hp _ h]
    · simp only [h, if_false]
      split <;> simp

theorem foldl_lines_append_ge (C : List Nat) :
    ∀ (k : Nat) (B : List Nat) (st : spec_state × Nat), B.length ≤ k →
      ((line_list 10 B).foldl spec_step st).2
        ≤ ((line_list 10 (B ++ C)).foldl spec_step st).2 := by
  intro k
  induction k with
  | zero =>
    intro B st hk
    have hl : B = [] := List.length_eq_zero.1 (by omega)
    subst hl
    rw [line_list_nil, List.nil_append]
    exact foldl_spec_step_count_ge _ st
  | succ k ih =>
    intro B st hk
    cases B with
    | nil =>
      rw [line_list_nil, List.nil_append]
      exact foldl_spec_step_count_ge _ st
    | cons b t =>
      by_cases hb : b = 10
      · subst hb
        rw [List.cons_append, line_list_cons_sep, line_list_cons_sep]
        exact ih t st (by simp at hk; omega)
      · have hsplit : t = t.takeWhile (· ≠ 10) ++ t.dropWhile (· ≠ 10) :=
          (List.takeWhile_append_dropWhile _ t).symm
        have htw : (10 : Nat) ∉ t.takeWhile (· ≠ 10) := by
          intro hmem
          have := List.mem_takeWhile_imp hmem
          simp at this
        have hds := (List.dropWhile_sublist (l := t) (fun x => decide (x ≠ 10))).length_le
        rw [List.cons_append, line_list_cons_ne 10 b t hb, line_list_cons_ne 10 b _ hb,
          List.foldl_cons, List.foldl_cons]
        cases hdw : t.dropWhile (· ≠ 10) with
        | nil =>
          have ht : t.takeWhile (· ≠ 10) = t := by
            conv_rhs => rw [hsplit, hdw, List.append_nil]
          have hall : ∀ a ∈ t, (fun x => decide (x ≠ 10)) a = true := by
            intro a ha
            rw [← ht] at ha
            have := List.mem_takeWhile_imp ha
            exact this
          rw [List.takeWhile_append_of_pos hall, ht, line_list_nil, List.foldl_nil]
          have e : b :: (t ++ C.takeWhile (· ≠ 10)) = (b :: t) ++ C.takeWhile (· ≠ 10) := rfl
          rw [e]
          exact le_trans (spec_step_extend st (b :: t) _) (foldl_spec_step_count_ge _ _)
        | cons d dw =>
          have hd : d = 10 := by
            have := List.head_dropWhile_not (fun x => decide (x ≠ 10)) t (by rw [hdw]; simp)
            simp only [hdw, List.head_cons] at this
            simpa using this
          subst hd
          have ht : t ++ C = t.takeWhile (· ≠ 10) ++ 10 :: (dw ++ C) := by
            conv_lhs => rw [hsplit, hdw]
            simp
          obtain ⟨h1, h2⟩ := takeWhile_ne_append_sep 10 (t.takeWhile (· ≠ 10)) (dw ++ C) htw
          rw [ht, h1, h2]
          rw [hdw, List.length_cons] at hds
          have := ih (10 :: dw) (spec_step st (b :: t.takeWhile (· ≠ 10)))
            (by simp at hk ⊢; omega)
          rwa [List.cons_append] at this

/-- C20: for all buffers `B` and `C` (`B ++ C` of a length a `size_t` holds), also when `C`
goes on with the last line of `B`, `count_base64_jpgs` returns a count for `B` and a count for
`B ++ C`, and the count for `B ++ C` is at least the count for `B`. -/
theorem count_monotone_under_append (B C : List Nat) (hlen : (B ++ C).length < 2 ^ 64) :
    ∃ m n, count_base64_jpgs B = some m ∧ count_base64_jpgs (B ++ C) = some n ∧ m ≤ n := by
  have hB : B.length < 2 ^ 64 := by
    rw [List.length_append] at hlen; omega
  refine ⟨_, _, count_base64_jpgs_eq B hB, count_base64_jpgs_eq _ hlen, ?_⟩
  exact foldl_lines_append_ge C B.length B _ (le_refl _)

/-- Witness of C20: the buffer `Content-Type: image/jpeg`, a line feed and the base64 header
without its last byte, and the buffer made of that byte `4`. -/
theorem count_monotone_under_append_witness :
    ∃ m n,
      count_base64_jpgs (JPEG_HEADER ++ [10] ++ BASE64_HEADER.take 32) = some m ∧
      count_base64_jpgs ((JPEG_HEADER ++ [10] ++ BASE64_HEADER.take 32) ++ [52]) = some n ∧
      m ≤ n :=
  count_monotone_under_append (JPEG_HEADER ++ [10] ++ BASE64_HEADER.take 32) [52] (by decide)

theorem main_of_success (m1 m2 : Bool) (argc : Nat) (argv : List (List Nat))
    (load : str_t → Option (List Nat)) (ro : run_options_t)
    (h : get_run_options_from_args m1 m2 argc argv = some (PARSE_ARGS_SUCC, some ro))
    (hfp : ro.file_path.bytes ≠ []) (hod : ro.output_dir.bytes ≠ []) :
    main m1 m2 load argc argv
      = match load ro.file_path with
        | none => some 1
        | some wsr_buffer => (count_base64_jpgs wsr_buffer).map (fun _ => 0) := by
  rewrite [main]
  generalize get_run_options_from_args m1 m2 argc argv = r at h
  subst h
  simp only [Option.some_bind, hfp, hod, if_false]
  cases load ro.file_path with
  | none => rfl
  | some B =>
    simp only []
    cases count_base64_jpgs B <;> rfl

theorem main_of_null_path (m1 m2 : Bool) (argc : Nat) (argv : List (List Nat))
    (load : str_t → Option (List Nat)) (ro : run_options_t)
    (h : get_run_options_from_args m1 m2 argc argv = some (PARSE_ARGS_SUCC, some ro))
    (hnull : ro.file_path.bytes = [] ∨ ro.output_dir.bytes = []) :
    main m1 m2 load argc argv = none := by
  rewrite [main]
  generalize get_run_options_from_args m1 m2 argc argv = r at h
  subst h
  simp only [Option.some_bind]
  by_cases hfp : ro.file_path.bytes = []
  · simp only [hfp, if_true]
  · rcases hnull with hn | hn
    · exact absurd hn hfp
    · simp only [hfp, hn, if_true, if_false]

theorem main_of_options (m1 m2 : Bool) (argc : Nat) (argv : List (List Nat))
    (fp od : List Nat) (p : Bool)
    (h : get_run_options_from_args m1 m2 argc argv
      = some (PARSE_ARGS_SUCC, some { file_path := make_str m1 (some fp),
                                      output_dir := make_str m2 (some od),
                                      is_preview := p })) :
    (m1 = true → m2 = true → ∀ load : str_t → Option (List Nat),
      main m1 m2 load argc argv
        = match load { bytes := fp ++ [0], len := fp.length } with
          | none => some 1
          | some wsr_buffer => (count_base64_jpgs wsr_buffer).map (fun _ => 0)) ∧
    ((m1 = false ∨ m2 = false) → ∀ load : str_t → Option (List Nat),
      main m1 m2 load argc argv = none) := by
  constructor
  · intro e1 e2 load
    subst e1 e2
    exact main_of_success true true argc argv load _ h (by simp [make_str]) (by simp [make_str])
  · intro hm load
    apply main_of_null_path m1 m2 argc argv load _ h
    rcases hm with e | e
    · left; subst e; rfl
    · right; subst e; rfl

/-- C13: for every argument vector `argv` of `argc ≥ 1` strings (`argc` an `int`),
`get_run_options_from_args` returns `PARSE_ARGS_MISSING_INPUT_FILE` iff `argc = 1`,
`PARSE_ARGS_MISSING_OUTPUT_DIR` iff `argc = 2` and `PARSE_ARGS_SUCC` iff `argc ≥ 3`. On success
`file_path` is what `make_str` gives for `argv[1]` and `output_dir` what it gives for
`argv[2]`: the string itself, zero-terminated, when the allocation of the copy succeeds, and
the zero string (null bytes, length 0) when it fails; `is_preview` is true iff `argc ≥ 4` and
`argv[3]` is `--preview`; arguments after `argv[3]` do not matter. With an error result `main`
exits with status 1. On success with both copies allocated `main` goes on to load the file of
that path and to scan it; with a failed allocation it leaves defined behaviour. -/
theorem cli_argument_count_contract (m1 m2 : Bool) (argc : Nat) (argv : List (List Nat))
    (hargv : argv.length = argc) (h1 : 1 ≤ argc) (hint : argc < 2 ^ 31) :
    ∃ err out, get_run_options_from_args m1 m2 argc argv = some (err, out) ∧
      (err = PARSE_ARGS_MISSING_INPUT_FILE ↔ argc = 1) ∧
      (err = PARSE_ARGS_MISSING_OUTPUT_DIR ↔ argc = 2) ∧
      (err = PARSE_ARGS_SUCC ↔ 3 ≤ argc) ∧
      (err = PARSE_ARGS_SUCC → ∃ fp od, argv[1]? = some fp ∧ argv[2]? = some od ∧
        out = some { file_path := make_str m1 (some fp),
                     output_dir := make_str m2 (some od),
                     is_preview :=
                       decide (4 ≤ argc ∧ argv[3]? = some (literal_bytes "--preview")) } ∧
        (m1 = true → make_str m1 (some fp) = { bytes := fp ++ [0], len := fp.length }) ∧
        (m1 = false → make_str m1 (some fp) = { bytes := [], len := 0 }) ∧
        (m2 = true → make_str m2 (some od) = { bytes := od ++ [0], len := od.length }) ∧
        (m2 = false → make_str m2 (some od) = { bytes := [], len := 0 }) ∧
        (m1 = true → m2 = true → ∀ load : str_t → Option (List Nat),
          main m1 m2 load argc argv
            = match load { bytes := fp ++ [0], len := fp.length } with
              | none => some 1
              | some wsr_buffer => (count_base64_jpgs wsr_buffer).map (fun _ => 0)) ∧
        ((m1 = false ∨ m2 = false) → ∀ load : str_t → Option (List Nat),
          main m1 m2 load argc argv = none)) ∧
      get_run_options_from_args m1 m2 (min argc 4) (argv.take 4) = some (err, out) ∧
      (err ≠ PARSE_ARGS_SUCC → out = none ∧ ∀ load, main m1 m2 load argc argv = some 1) := by
  have htake := get_run_options_from_args_cases m1 m2 (min argc 4) (argv.take 4)
    (by rw [List.length_take, hargv, Nat.min_comm]) (by omega) (by omega)
  have hcases := get_run_options_from_args_cases m1 m2 argc argv hargv h1 hint
  have hok : ∀ (m : Bool) (x : List Nat), m = true →
      make_str m (some x) = { bytes := x ++ [0], len := x.length } := by
    intro m x hm; subst hm; rfl
  have hfail : ∀ (m : Bool) (x : List Nat), m = false →
      make_str m (some x) = { bytes := [], len := 0 } := by
    intro m x hm; subst hm; rfl
  rcases argv with _ | ⟨a0, _ | ⟨a1, _ | ⟨a2, _ | ⟨a3, rest⟩⟩⟩⟩
  · simp at hargv; omega
  · simp at hargv; subst hargv
    simp only [] at hcases
    refine ⟨_, _, hcases, by simp, by simp, by simp, by simp, htake, ?_⟩
    intro herr
    exact ⟨rfl, fun load => main_of_error m1 m2 _ _ load _ _ hcases herr⟩
  · simp at hargv; subst hargv
    simp only [] at hcases
    refine ⟨_, _, hcases, by simp, by simp, by simp, by simp, htake, ?_⟩
    intro herr
    exact ⟨rfl, fun load => main_of_error m1 m2 _ _ load _ _ hcases herr⟩
  · simp at hargv; subst hargv
    simp only [] at hcases
    obtain ⟨hm1, hm2⟩ := main_of_options m1 m2 _ _ a1 a2 false hcases
    refine ⟨_, _, hcases, by simp, by simp, by simp, ?_, htake, by simp⟩
    intro _
    exact ⟨a1, a2, rfl, rfl, by simp, hok m1 a1, hfail m1 a1, hok m2 a2, hfail m2 a2, hm1, hm2⟩
  · simp at hargv; subst hargv
    simp only [] at hcases
    obtain ⟨hm1, hm2⟩ := main_of_options m1 m2 _ _ a1 a2 _ hcases
    refine ⟨_, _, hcases, by simp, by simp, by simp, ?_, ?_, by simp⟩
    · intro _
      refine ⟨a1, a2, rfl, rfl, ?_, hok m1 a1, hfail m1 a1, hok m2 a2, hfail m2 a2, hm1, hm2⟩
      simp [cstr_eq]
    · simpa using htake

/-- Witness of C13: the program name, two paths and the flag `--preview`. -/
theorem cli_argument_count_contract_witness :
    ∃ err out, get_run_options_from_args true true 4
        [[119], [97], [98], literal_bytes "--preview"] = some (err, out) ∧
      err = PARSE_ARGS_SUCC ∧
      out = some { file_path := { bytes := [97, 0], len := 1 },
                   output_dir := { bytes := [98, 0], len := 1 },
                   is_preview := true } := by
  obtain ⟨err, out, h, _, _, hs, ho, _⟩ := cli_argument_count_contract true true 4
    [[119], [97], [98], literal_bytes "--preview"] (by decide) (by decide) (by decide)
  refine ⟨err, out, h, hs.2 (by decide), ?_⟩
  obtain ⟨fp, od, h1, h2, h3, _⟩ := ho (hs.2 (by decide))
  simp at h1 h2
  subst h1 h2
  rw [h3]
  decide

/-- Counterexample to C13 as stated: with the program name and two paths, and both calls of
`malloc` in `make_str` failing, `get_run_options_from_args` still returns `PARSE_ARGS_SUCC`,
and `file_path` and `output_dir` are the zero string, not `argv[1]` and `argv[2]`. -/
theorem cli_failed_allocation_counterexample :
    get_run_options_from_args false false 3 [[119], [97], [98]]
      = some (PARSE_ARGS_SUCC, some { file_path := { bytes := [], len := 0 },
                                      output_dir := { bytes := [], len := 0 },
                                      is_preview := false }) ∧
    ¬ (∀ (m1 m2 : Bool) (argc : Nat) (argv : List (List Nat)) (ro : run_options_t),
        argv.length = argc → 1 ≤ argc → argc < 2 ^ 31 →
        get_run_options_from_args m1 m2 argc argv = some (PARSE_ARGS_SUCC, some ro) →
        ∃ fp od, argv[1]? = some fp ∧ argv[2]? = some od ∧
          ro.file_path = { bytes := fp ++ [0], len := fp.length } ∧
          ro.output_dir = { bytes := od ++ [0], len := od.length }) := by
  have hev : get_run_options_from_args false false 3 [[119], [97], [98]]
      = some (PARSE_ARGS_SUCC, some { file_path := { bytes := [], len := 0 },
                                      output_dir := { bytes := [], len := 0 },
                                      is_preview := false }) := by decide
  refine ⟨hev, ?_⟩
  intro hall
  obtain ⟨fp, od, _, _, hfp, _⟩ := hall false false 3 [[119], [97], [98]] _ rfl (by decide)
    (by decide) hev
  have := congrArg str_t.bytes hfp
  simp at this

end WSR
